import Mathlib

/-!
Shallow embedding of the structural-analysis core of `fixlet_debugger.py`
(bracket matcher, if/then/else keyword-block matcher, it-referent resolver,
paren-depth tracker, pretty-printer/compactor).

Text is modelled as `List Char`, positions as 0-based `Nat` offsets, and the
Python integer depth counters as `Int`.  Word characters model the ASCII
fragment of Python's `\w` (`[A-Za-z0-9_]`); whitespace models Python's
ASCII `str.split()` / `str.strip()` whitespace.
-/

namespace FixletDebugger

/-- A keyword occurrence, as collected by `re.finditer(r'\b(...)\b', text)`:
lower-cased word plus its `[start, stop)` character span. -/
structure Kw where
  word : String
  start : Nat
  stop : Nat
deriving DecidableEq, Repr

/-- Highlight classification: "matched" (orange / green) vs "unmatched" (red). -/
inductive SpanClass where
  | matched
  | unmatched
deriving DecidableEq, Repr

/-- A highlight span (an `ExtraSelection` over `[start, stop)`). -/
structure Span where
  start : Nat
  stop : Nat
  cls : SpanClass
deriving DecidableEq, Repr

/-- A referent span `{start, end}` as returned by the referent finders. -/
structure Ref where
  start : Nat
  stop : Nat
deriving DecidableEq, Repr

/-- ASCII fragment of Python's regex `\w`: `[A-Za-z0-9_]`. -/
def isWordChar (c : Char) : Bool :=
  c.isAlpha || c.isDigit || c = '_'

/-- Python's ASCII whitespace (`str.split()` / `str.strip()` default set,
which also covers the regex `\s` class). -/
def isPyWs (c : Char) : Bool :=
  c = ' ' || c = '\t' || c = '\n' || c = '\r' || c = '\x0b' || c = '\x0c'

/-- Character of `text` at index `i`, defaulting to NUL out of range.  The
source only indexes in bounds (each subscript is guarded); the default is a
modelling convenience, never reached on the guarded paths. -/
def charAt (text : List Char) (i : Nat) : Char :=
  text.getD i '\x00'

/-- `re` word boundary on the left of position `i`: start of text or a
non-word character before `i`. -/
def boundaryBefore (text : List Char) (i : Nat) : Bool :=
  i = 0 || !isWordChar (charAt text (i - 1))

/-- The maximal run of word characters starting at position `i`. -/
def wordFrom (text : List Char) (i : Nat) : List Char :=
  (text.drop i).takeWhile isWordChar

/-- Lower-case a character list into a `String`. -/
def lcString (l : List Char) : String :=
  String.mk (l.map Char.toLower)

/-- Whole-word keyword occurrence at position `i`: a left word boundary and
the maximal word starting at `i` (lower-cased) is one of `kset`.  This is
equivalent to Python's `\b(w1|w2|...)\b` with `re.IGNORECASE` for the
keyword sets used by the source (each alternative is a whole word). -/
def keywordAt (kset : List String) (text : List Char) (i : Nat) : Option Kw :=
  if boundaryBefore text i then
    let w := wordFrom text i
    if w ≠ [] ∧ lcString w ∈ kset then
      some ⟨lcString w, i, i + w.length⟩
    else none
  else none

/-- All whole-word occurrences of the keywords in `kset`, in positional
order — the model of `re.finditer(r'\b(...)\b', text, re.IGNORECASE)`. -/
def findKeywords (kset : List String) (text : List Char) : List Kw :=
  (List.range (text.length + 1)).filterMap (keywordAt kset text)

/-- `get_paren_depth(text, pos)`: running count of `'('` minus `')'` over
`text[0:pos]` (source lines 1625–1633).  Not clamped at zero.  The source
iterates `text[i] for i in range(pos)` and raises `IndexError` when
`pos > len(text)`; the `take`-based model is therefore meaningful only
for `pos ≤ text.length`, and every theorem below stays within that
bound (every caller in the source passes a keyword or cursor offset that
is at most the text length). -/
def getParenDepth (text : List Char) (pos : Nat) : Int :=
  (text.take pos).foldl
    (fun d c => if c = '(' then d + 1 else if c = ')' then d - 1 else d) 0

/-! ### Bracket matcher (`find_matching_bracket`, lines 1815–1856) -/

/-- Forward half of `find_matching_bracket`, iterating over the remaining
characters while tracking the absolute index: `ch` (the opener just seen)
increments the counter, `target` decrements it, and the position where it
reaches zero is the match. -/
def findForwardAux (ch target : Char) : List Char → Nat → Nat → Option Nat
  | [], _, _ => none
  | c :: rest, count, i =>
    if c = ch then findForwardAux ch target rest (count + 1) (i + 1)
    else if c = target then
      if count = 1 then some i else findForwardAux ch target rest (count - 1) (i + 1)
    else findForwardAux ch target rest count (i + 1)

/-- Forward scan of `find_matching_bracket` starting at index `i`. -/
def findForward (text : List Char) (ch target : Char) (count i : Nat) : Option Nat :=
  findForwardAux ch target (text.drop i) count i

/-- Backward half of `find_matching_bracket`: `p` encodes Python's
`search_pos + 1` (so `p = 0` means the scan ran off the left end). -/
def findBackward (text : List Char) (ch target : Char) : Nat → Nat → Option Nat
  | _, 0 => none
  | count, p + 1 =>
    let c := charAt text p
    if c = ch then findBackward text ch target (count + 1) p
    else if c = target then
      if count = 1 then some p else findBackward text ch target (count - 1) p
    else findBackward text ch target count p

/-- `find_matching_bracket(text, pos, char, ...)`: dispatch on the bracket
character; openers search forward for the same-type closer, closers search
backward.  Non-bracket characters yield no match. -/
def findMatchingBracket (text : List Char) (pos : Nat) (c : Char) : Option Nat :=
  if c = '(' then findForward text '(' ')' 1 (pos + 1)
  else if c = '[' then findForward text '[' ']' 1 (pos + 1)
  else if c = '{' then findForward text '{' '}' 1 (pos + 1)
  else if c = ')' then findBackward text ')' '(' 1 pos
  else if c = ']' then findBackward text ']' '[' 1 pos
  else if c = '}' then findBackward text '}' '{' 1 pos
  else none

/-- Membership in `'([{' + ')]}'`. -/
def isBracketChar (c : Char) : Bool :=
  c = '(' || c = '[' || c = '{' || c = ')' || c = ']' || c = '}'

/-- `get_cursor_bracket_selections(pane, text, pos)` (lines 1229–1299):
prefer the character immediately before the cursor, fall back to the
character at the cursor; matched pairs give two length-1 "matched" spans,
an unmatched bracket gives one length-1 "unmatched" span.

At `pos = 0` the source sets `char_before = ''`, and Python's
`'' in '([{)]}'` is `True` (the empty string is a substring of any
string), so the before-cursor branch captures `check_char = ''` and the
`not check_char` guard at line 1254 returns the empty list — the
at-cursor fallback is never reached at position 0, and the call yields
no selections there.  Symmetrically, `char_at = ''` at `pos ≥ len(text)`
is captured by the fallback branch and also returns the empty list,
which coincides with the `pos < text.length` test below.  (For
`pos > len(text) + 1` the source would raise on `text[pos - 1]`; the
dispatcher guards `pos ≤ len(text)` and every theorem below stays within
that bound, where the `charAt` NUL default is never consulted.) -/
def getCursorBracketSelections (text : List Char) (pos : Nat) : List Span :=
  let checkInfo : Option (Nat × Char) :=
    if pos = 0 then none
    else if isBracketChar (charAt text (pos - 1)) then some (pos - 1, charAt text (pos - 1))
    else if pos < text.length && isBracketChar (charAt text pos) then
      some (pos, charAt text pos)
    else none
  match checkInfo with
  | none => []
  | some (checkPos, checkChar) =>
    match findMatchingBracket text checkPos checkChar with
    | some matchPos =>
      [⟨checkPos, checkPos + 1, .matched⟩, ⟨matchPos, matchPos + 1, .matched⟩]
    | none => [⟨checkPos, checkPos + 1, .unmatched⟩]

/-! ### Keyword-block matcher (`find_*` for if/then/else, lines 1635–1813) -/

/-- The text segment `text[a:b]` as a character list. -/
def seg (text : List Char) (a b : Nat) : List Char :=
  (text.drop a).take (b - a)

/-- Forward depth update over one segment, with the early abort of the
source's inner loops: the moment a `')'` takes the running depth below
`startDepth`, the scan returns `none` (the search in that direction
stops); otherwise the final depth is returned. -/
def scanSegF (startDepth : Int) : List Char → Int → Option Int
  | [], d => some d
  | c :: rest, d =>
    if c = '(' then scanSegF startDepth rest (d + 1)
    else if c = ')' then
      if d - 1 < startDepth then none else scanSegF startDepth rest (d - 1)
    else scanSegF startDepth rest d

/-- Backward depth update over one segment (fed in scan order, i.e. the
reversed segment): `')'` increments, `'('` decrements, aborting as soon as
the depth drops below `startDepth`. -/
def scanSegB (startDepth : Int) : List Char → Int → Option Int
  | [], d => some d
  | c :: rest, d =>
    if c = ')' then scanSegB startDepth rest (d + 1)
    else if c = '(' then
      if d - 1 < startDepth then none else scanSegB startDepth rest (d - 1)
    else scanSegB startDepth rest d

/-- Loop body of `find_then_else_for_if` (lines 1648–1692): walk the
keywords after the anchor `if` in order, keeping the running depth, the
nested-`if` counter and the `then` found so far; returns
`(found_then, found_else)`. -/
def ftefGo (text : List Char) (sd : Int) :
    List Kw → Nat → Int → Nat → Option Kw → Option Kw × Option Kw
  | [], _, _, _, ft => (ft, none)
  | kw :: rest, scanFrom, d, nest, ft =>
    match scanSegF sd (seg text scanFrom kw.start) d with
    | none => (ft, none)
    | some d' =>
      if sd ≤ d' then
        if kw.word = "if" then ftefGo text sd rest kw.stop d' (nest + 1) ft
        else if kw.word = "then" then
          if nest = 0 ∧ ft = none then ftefGo text sd rest kw.stop d' nest (some kw)
          else ftefGo text sd rest kw.stop d' nest ft
        else if kw.word = "else" then
          if nest = 0 ∧ ft.isSome then (ft, some kw)
          else if nest > 0 then ftefGo text sd rest kw.stop d' (nest - 1) ft
          else ftefGo text sd rest kw.stop d' nest ft
        else ftefGo text sd rest kw.stop d' nest ft
      else ftefGo text sd rest kw.stop d' nest ft

/-- `find_then_else_for_if(text, if_kw, keywords)`. -/
def findThenElseForIf (text : List Char) (ifKw : Kw) (keywords : List Kw) :
    Option Kw × Option Kw × Option Kw :=
  let sd := getParenDepth text ifKw.start
  let after := keywords.filter (fun k => ifKw.start < k.start)
  let r := ftefGo text sd after ifKw.start sd 0 none
  (some ifKw, r.1, r.2)

/-- Backward loop of `find_if_else_for_then` (lines 1699–1732): walk the
keywords before the anchor in reverse positional order looking for the
enclosing `if`, with the mirrored `then`-nesting counter. -/
def fieftBack (text : List Char) (sd : Int) :
    List Kw → Nat → Int → Nat → Option Kw
  | [], _, _, _ => none
  | kw :: rest, prevPos, d, nest =>
    match scanSegB sd (seg text kw.stop prevPos).reverse d with
    | none => none
    | some d' =>
      if sd ≤ d' then
        if kw.word = "then" then fieftBack text sd rest kw.start d' (nest + 1)
        else if kw.word = "if" then
          if nest = 0 then some kw else fieftBack text sd rest kw.start d' (nest - 1)
        else fieftBack text sd rest kw.start d' nest
      else fieftBack text sd rest kw.start d' nest

/-- Forward loop of `find_if_else_for_then` (lines 1734–1766): look for the
`else`, where each further `if` bumps a nesting counter that `else` first
consumes. -/
def fieftFwd (text : List Char) (sd : Int) :
    List Kw → Nat → Int → Nat → Option Kw
  | [], _, _, _ => none
  | kw :: rest, scanFrom, d, nest =>
    match scanSegF sd (seg text scanFrom kw.start) d with
    | none => none
    | some d' =>
      if sd ≤ d' then
        if kw.word = "if" then fieftFwd text sd rest kw.stop d' (nest + 1)
        else if kw.word = "else" then
          if nest = 0 then some kw else fieftFwd text sd rest kw.stop d' (nest - 1)
        else fieftFwd text sd rest kw.stop d' nest
      else fieftFwd text sd rest kw.stop d' nest

/-- `find_if_else_for_then(text, then_kw, keywords)`. -/
def findIfElseForThen (text : List Char) (thenKw : Kw) (keywords : List Kw) :
    Option Kw × Option Kw × Option Kw :=
  let sd := getParenDepth text thenKw.start
  let before := (keywords.filter (fun k => k.start < thenKw.start)).reverse
  let foundIf := fieftBack text sd before thenKw.start sd 0
  let foundElse :=
    match foundIf with
    | some _ =>
      let after := keywords.filter (fun k => thenKw.start < k.start)
      fieftFwd text sd after thenKw.stop sd 0
    | none => none
  (foundIf, some thenKw, foundElse)

/-- Backward loop of `find_if_then_for_else` (lines 1785–1811): walk the
keywords before the anchor `else` in reverse order, collecting its `then`
and then its `if`, with the `else`-nesting counter; returns
`(found_if, found_then)`. -/
def fitfeBack (text : List Char) (sd : Int) :
    List Kw → Nat → Int → Nat → Option Kw → Option Kw × Option Kw
  | [], _, _, _, ft => (none, ft)
  | kw :: rest, prevPos, d, nest, ft =>
    match scanSegB sd (seg text kw.stop prevPos).reverse d with
    | none => (none, ft)
    | some d' =>
      if sd ≤ d' then
        if kw.word = "else" then fitfeBack text sd rest kw.start d' (nest + 1) ft
        else if kw.word = "then" then
          if nest = 0 ∧ ft = none then fitfeBack text sd rest kw.start d' nest (some kw)
          else fitfeBack text sd rest kw.start d' nest ft
        else if kw.word = "if" then
          if nest = 0 ∧ ft.isSome then (some kw, ft)
          else if nest > 0 then fitfeBack text sd rest kw.start d' (nest - 1) ft
          else fitfeBack text sd rest kw.start d' nest ft
        else fitfeBack text sd rest kw.start d' nest ft
      else fitfeBack text sd rest kw.start d' nest ft

/-- `find_if_then_for_else(text, else_kw, keywords)`. -/
def findIfThenForElse (text : List Char) (elseKw : Kw) (keywords : List Kw) :
    Option Kw × Option Kw × Option Kw :=
  let sd := getParenDepth text elseKw.start
  let before := (keywords.filter (fun k => k.start < elseKw.start)).reverse
  let r := fitfeBack text sd before elseKw.start sd 0 none
  (r.1, r.2, some elseKw)

/-- `find_matching_if_then_else(text, keywords, current_keyword)`
(lines 1635–1646). -/
def findMatchingIfThenElse (text : List Char) (keywords : List Kw) (cur : Kw) :
    Option Kw × Option Kw × Option Kw :=
  if cur.word = "if" then findThenElseForIf text cur keywords
  else if cur.word = "then" then findIfElseForThen text cur keywords
  else if cur.word = "else" then findIfThenForElse text cur keywords
  else (none, none, none)

/-- The keyword set of the if/then/else scan. -/
def iteWords : List String := ["if", "then", "else"]

/-- Span construction of `highlight_if_then_else`: one span per found
keyword, in if/then/else order, all "matched" when all three were found
and all "unmatched" otherwise. -/
def mkIteSpans (i t e : Option Kw) : List Span :=
  let cls : SpanClass := if i.isSome ∧ t.isSome ∧ e.isSome then .matched else .unmatched
  let opt : Option Kw → List Span := fun o =>
    match o with
    | some k => [⟨k.start, k.stop, cls⟩]
    | none => []
  opt i ++ opt t ++ opt e

/-- `highlight_if_then_else(pane, text, pos)` (lines 1562–1623): `none`
models Python's `None` (no keyword under the cursor / nothing found). -/
def highlightIfThenElse (text : List Char) (pos : Nat) : Option (List Span) :=
  let keywords := findKeywords iteWords text
  if keywords.isEmpty then none
  else
    match keywords.find? (fun k => k.start ≤ pos && pos ≤ k.stop) with
    | none => none
    | some cur =>
      let r := findMatchingIfThenElse text keywords cur
      let spans := mkIteSpans r.1 r.2.1 r.2.2
      if spans.isEmpty then none else some spans

/-! ### Referent resolver (`find_whose_context`, `find_of_it_context`,
`find_it_referent`, `highlight_it_references`, lines 1301–1560) -/

/-- Whitespace skip over the remaining characters, tracking the absolute
index. -/
def skipWsAux : List Char → Nat → Nat
  | [], i => i
  | c :: rest, i => if isPyWs c then skipWsAux rest (i + 1) else i

/-- First index `≥ i` holding a non-whitespace character (regex `\s*`). -/
def skipWsFrom (text : List Char) (i : Nat) : Nat :=
  skipWsAux (text.drop i) i

/-- A match of `\bwhose\s*\(` starting at `w`: returns the match end
(the position just after the `'('`) when it matches. -/
def whoseMatchAt (text : List Char) (w : Nat) : Option Nat :=
  if boundaryBefore text w ∧ lcString (seg text w (w + 5)) = "whose" then
    let j := skipWsFrom text (w + 5)
    if charAt text j = '(' ∧ j < text.length then some (j + 1) else none
  else none

/-- All matches of `\bwhose\s*\(` as `(start, end)` pairs, in order. -/
def whoseMatches (text : List Char) : List (Nat × Nat) :=
  (List.range (text.length + 1)).filterMap
    (fun w => (whoseMatchAt text w).map (fun e => (w, e)))

/-- The `containing_whose` loop (lines 1408–1434): the first `whose (`
whose parenthesized span contains `it_pos`, an unclosed paren counting as
extending to the end of text. -/
def findContainingWhose (text : List Char) (itPos : Nat) :
    List (Nat × Nat) → Option (Nat × Nat)
  | [] => none
  | (ws, we) :: rest =>
    match findForward text '(' ')' 1 we with
    | some pe =>
      if we ≤ itPos ∧ itPos ≤ pe then some (ws, we)
      else findContainingWhose text itPos rest
    | none =>
      if we ≤ itPos then some (ws, we) else findContainingWhose text itPos rest

/-- Backward skip over the source's literal `' \t\n'` set (line 1444). -/
def skipBackWs3 (text : List Char) : Nat → Nat
  | 0 => 0
  | e + 1 =>
    if charAt text e = ' ' ∨ charAt text e = '\t' ∨ charAt text e = '\n' then
      skipBackWs3 text e
    else e + 1

/-- The backward matching-paren loop of the parenthesized-referent branch
(lines 1452–1465): `p` encodes `expr_start + 1`; succeeds with the final
`expr_start + 1` exactly when the running depth reached zero. -/
def backParen (text : List Char) : Nat → Nat → Option Nat
  | d, 0 => if d = 0 then some 0 else none
  | d, p + 1 =>
    if d = 0 then some (p + 1)
    else
      let c := charAt text p
      backParen text (if c = ')' then d + 1 else if c = '(' then d - 1 else d) p

/-- Word-delimiter set of the single-word referent branch (line 1474). -/
def isWordStop (c : Char) : Bool :=
  c = ' ' || c = '\t' || c = '\n' || c = '(' || c = ')' || c = '[' || c = ']' ||
  c = '{' || c = '}' || c = ',' || c = ':' || c = ';'

/-- Backward scan for the start of the word ending at the given position. -/
def wordBack (text : List Char) : Nat → Nat
  | 0 => 0
  | w + 1 => if isWordStop (charAt text w) then w + 1 else wordBack text w

/-- `find_whose_context(text, it_pos)` (lines 1400–1481). -/
def findWhoseContext (text : List Char) (itPos : Nat) : Option Ref :=
  match findContainingWhose text itPos (whoseMatches text) with
  | none => none
  | some (ws, _) =>
    let exprEnd := skipBackWs3 text ws
    if exprEnd = 0 then none
    else if charAt text (exprEnd - 1) = ')' then
      match backParen text 1 (exprEnd - 1) with
      | some exprStart => some ⟨exprStart, exprEnd⟩
      | none => none
    else
      let wordStart := wordBack text exprEnd
      if wordStart < exprEnd then some ⟨wordStart, exprEnd⟩ else none

/-- `str.rstrip()` over the modelled whitespace set. -/
def rstripPy (l : List Char) : List Char :=
  (l.reverse.dropWhile isPyWs).reverse

/-- `str.lstrip()` over the modelled whitespace set. -/
def lstripPy (l : List Char) : List Char :=
  l.dropWhile isPyWs

/-- `before_it.lower().endswith(' of')`. -/
def endsWithSpOf (l : List Char) : Bool :=
  match l.reverse with
  | f :: o :: sp :: _ => f.toLower = 'f' && o.toLower = 'o' && sp = ' '
  | _ => false

/-- Backward scan for the `'('` enclosing `it` at its own nesting level
(lines 1491–1503): `p` encodes the next index to examine plus one. -/
def backOpen (text : List Char) : Nat → Nat → Option Nat
  | _, 0 => none
  | d, p + 1 =>
    let c := charAt text p
    if c = ')' then backOpen text (d + 1) p
    else if c = '(' then (if d = 0 then some p else backOpen text (d - 1) p)
    else backOpen text d p

/-- Object-end scan over the remaining characters, tracking the absolute
index. -/
def objEndAux : List Char → Nat → Nat → Nat
  | [], _, i => i
  | c :: rest, d, i =>
    if c = '(' then objEndAux rest (d + 1) (i + 1)
    else if c = ')' then
      if d = 0 then i else objEndAux rest (d - 1) (i + 1)
    else if c = '\n' then i
    else objEndAux rest d (i + 1)

/-- Forward scan for the end of the referent object (lines 1537–1551):
stops at end of text, a newline, or a close paren at relative depth 0. -/
def objEndScan (text : List Char) (d : Nat) (i : Nat) : Nat :=
  objEndAux (text.drop i) d i

/-- Trailing trim over the source's literal `' \t'` set (line 1554). -/
def trimBackSpTab (text : List Char) (lo : Nat) : Nat → Nat
  | 0 => 0
  | e + 1 =>
    if lo < e + 1 ∧ (charAt text e = ' ' ∨ charAt text e = '\t') then
      trimBackSpTab text lo e
    else e + 1

/-- `find_of_it_context(text, it_pos)` (lines 1483–1560). -/
def findOfItContext (text : List Char) (itPos : Nat) : Option Ref :=
  let beforeIt := rstripPy (text.take itPos)
  if ¬ endsWithSpOf beforeIt then none
  else
    match backOpen text 0 itPos with
    | none => none
    | some parenStart =>
      match findForward text '(' ')' 1 (parenStart + 1) with
      | none => none
      | some parenEnd =>
        let tail := text.drop (parenEnd + 1)
        let afterParen := lstripPy tail
        match afterParen with
        | o :: f :: sp :: _ =>
          if o.toLower = 'o' ∧ f.toLower = 'f' ∧ sp = ' ' then
            let leadWs := tail.length - afterParen.length
            let wsRun := ((afterParen.drop 2).takeWhile isPyWs).length
            let objStart := parenEnd + 1 + leadWs + 2 + wsRun
            let objEnd₀ := objEndScan text 0 objStart
            let objEnd := trimBackSpTab text objStart objEnd₀
            if objStart < objEnd then some ⟨objStart, objEnd⟩ else none
          else none
        | _ => none

/-- `find_it_referent(text, it_keyword)` (lines 1384–1398): the
whose-clause pattern first, the of-it pattern only if it yields nothing. -/
def findItReferent (text : List Char) (itKw : Kw) : Option Ref :=
  match findWhoseContext text itKw.start with
  | some r => some r
  | none => findOfItContext text itKw.start

/-- The pronoun keyword set of the referent resolver. -/
def itWords : List String := ["it", "its", "them"]

/-- `highlight_it_references(pane, text, pos)` (lines 1301–1382). -/
def highlightItReferences (text : List Char) (pos : Nat) : Option (List Span) :=
  let itKws := findKeywords itWords text
  if itKws.isEmpty then none
  else
    match itKws.find? (fun k => k.start ≤ pos && pos ≤ k.stop) with
    | none => none
    | some cur =>
      match findItReferent text cur with
      | some ref =>
        let sibs := itKws.filterMap (fun o =>
          if o.start ≠ cur.start then
            match findItReferent text o with
            | some r =>
              if r.start = ref.start ∧ r.stop = ref.stop then
                some (⟨o.start, o.stop, .matched⟩ : Span)
              else none
            | none => none
          else none)
        some ([⟨cur.start, cur.stop, .matched⟩, ⟨ref.start, ref.stop, .matched⟩] ++ sibs)
      | none => some [⟨cur.start, cur.stop, .unmatched⟩]

/-- `highlight_matching_brackets` (lines 1193–1227), modelled as the list
of selections the call installs: empty text or an offset past the end
yields no selections; otherwise the referent resolver, the keyword-block
matcher and the bracket matcher are tried in that order. -/
def highlightMatchingBrackets (text : List Char) (pos : Nat) : List Span :=
  if text = [] ∨ pos > text.length then []
  else
    match highlightItReferences text pos with
    | some s => s
    | none =>
      match highlightIfThenElse text pos with
      | some s => s
      | none => getCursorBracketSelections text pos

/-! ### Pretty-printer / compactor (`pretty_print_relevance`,
`_tokenize_for_pretty_print`, `format_expression`, lines 1858–1936) -/

/-- Length of the delimiter token starting at `i`, if any: a single paren,
or a whole-word `if`/`then`/`else` (model of the leftmost-match scan of
`re.split(r'(\(|\)|\bif\b|\bthen\b|\belse\b)', expr, re.IGNORECASE)`). -/
def delimLen (text : List Char) (i : Nat) : Option Nat :=
  if i < text.length ∧ (charAt text i = '(' ∨ charAt text i = ')') then some 1
  else
    match keywordAt iteWords text i with
    | some k => some (k.stop - k.start)
    | none => none

theorem keywordAt_eq (kset : List String) (text : List Char) (i : Nat) (k : Kw)
    (h : keywordAt kset text i = some k) :
    k.start = i ∧ k.stop = i + (wordFrom text i).length ∧ wordFrom text i ≠ [] := by
  unfold keywordAt at h
  split at h
  · dsimp only at h
    split at h
    · rename_i hw
      cases h
      exact ⟨rfl, rfl, hw.1⟩
    · exact absurd h (by simp)
  · exact absurd h (by simp)

theorem delimLen_pos (text : List Char) (i len : Nat)
    (h : delimLen text i = some len) : 0 < len := by
  unfold delimLen at h
  split at h
  · cases h; exact Nat.one_pos
  · cases hk : keywordAt iteWords text i with
    | none => rw [hk] at h; exact absurd h (by simp)
    | some k =>
      rw [hk] at h
      cases h
      obtain ⟨h1, h2, h3⟩ := keywordAt_eq iteWords text i k hk
      rw [h1, h2]
      simp only [Nat.add_sub_cancel_left]
      exact List.length_pos.mpr h3

/-- `_tokenize_for_pretty_print` (lines 1909–1914): splits the text into
delimiter tokens and the (nonempty) runs between them, preserving all
characters; empty parts are dropped as in the source's filter. -/
def tokenizeGo (text : List Char) (i : Nat) (run : List Char)
    (acc : List (List Char)) : List (List Char) :=
  if h : i < text.length then
    match hd : delimLen text i with
    | some len =>
      tokenizeGo text (i + len) []
        (acc ++ (if run = [] then [] else [run]) ++ [seg text i (i + len)])
    | none => tokenizeGo text (i + 1) (run ++ [text.get ⟨i, h⟩]) acc
  else acc ++ (if run = [] then [] else [run])
termination_by text.length - i
decreasing_by
  · have := delimLen_pos text i len hd
    omega
  · omega

def tokenizeForPrettyPrint (text : List Char) : List (List Char) :=
  tokenizeGo text 0 [] []

/-- `str.strip()` over the modelled whitespace set. -/
def stripPy (l : List Char) : List Char :=
  rstripPy (lstripPy l)

/-- State of the pretty-printing fold: emitted lines, current indent
level, and the line buffer. -/
structure PPState where
  result : List (List Char)
  indent : Nat
  curLine : List Char
deriving Repr

/-- The 4-space indent prefix for a given level. -/
def indentChars (n : Nat) : List Char :=
  List.replicate (4 * n) ' '

/-- Flush the buffered line (lines 1882–1884 and friends): appended at the
current indent when its stripped content is nonempty. -/
def ppFlush (st : PPState) : PPState :=
  if stripPy st.curLine ≠ [] then
    { result := st.result ++ [indentChars st.indent ++ stripPy st.curLine],
      indent := st.indent, curLine := [] }
  else st

/-- One step of the `pretty_print_relevance` token loop (lines 1870–1901). -/
def ppStep (st : PPState) (tok : List Char) : PPState :=
  let tokStripped := stripPy tok
  if tokStripped = [] then
    if st.curLine ≠ [] ∧ st.curLine.getLast? ≠ some ' ' then
      { st with curLine := st.curLine ++ [' '] }
    else st
  else if tokStripped = ['('] then
    let st' := ppFlush st
    { result := st'.result ++ [indentChars st'.indent ++ ['(']],
      indent := st'.indent + 1, curLine := st'.curLine }
  else if tokStripped = [')'] then
    let st' := ppFlush st
    { result := st'.result ++ [indentChars (st'.indent - 1) ++ [')']],
      indent := st'.indent - 1, curLine := st'.curLine }
  else if lcString tokStripped ∈ iteWords then
    let st' := ppFlush st
    { st' with curLine := tokStripped ++ [' '] }
  else
    { st with curLine := st.curLine ++ tokStripped ++ [' '] }

/-- `pretty_print_relevance(expr)` (lines 1860–1907). -/
def prettyPrintRelevance (expr : List Char) : List Char :=
  let st := (tokenizeForPrettyPrint expr).foldl ppStep ⟨[], 0, []⟩
  List.intercalate ['\n'] (ppFlush st).result

/-- `str.split()` (split on whitespace runs, dropping empties). -/
def splitPyWs : List Char → List (List Char)
  | [] => []
  | c :: rest =>
    if isPyWs c then splitPyWs rest
    else
      ((c :: rest).takeWhile (fun x => !isPyWs x)) ::
        splitPyWs (rest.dropWhile (fun x => !isPyWs x))
termination_by l => l.length
decreasing_by
  · simp
  · have := (List.dropWhile_sublist (l := rest) (p := fun x => !isPyWs x)).length_le
    simp only [List.length_cons]
    omega

/-- The compact operation of `format_expression` (line 1929):
`' '.join(expr.split())`. -/
def compact (l : List Char) : List Char :=
  List.intercalate [' '] (splitPyWs l)

/-! ## Theorems -/

/-! ### C1: paren depth -/

theorem depthFold_eq (l : List Char) (d : Int) :
    l.foldl (fun d c => if c = '(' then d + 1 else if c = ')' then d - 1 else d) d
      = d + (l.count '(' : Int) - (l.count ')' : Int) := by
  induction l generalizing d with
  | nil => simp
  | cons c rest ih =>
    rw [List.foldl_cons, ih]
    by_cases h1 : c = '('
    · subst h1
      rw [List.count_cons_self, List.count_cons_of_ne (by decide : ')' ≠ '(')]
      rw [if_pos rfl]
      push_cast
      ring
    · by_cases h2 : c = ')'
      · subst h2
        rw [List.count_cons_self, List.count_cons_of_ne (by decide : '(' ≠ ')')]
        rw [if_neg h1, if_pos rfl]
        push_cast
        ring
      · rw [List.count_cons_of_ne (fun hh => h1 hh.symm),
          List.count_cons_of_ne (fun hh => h2 hh.symm)]
        rw [if_neg h1, if_neg h2]

/-- C1 counterexample: at `text = ")"`, `offset = 1 ≤ len`, the computed
paren depth is `-1`, a negative integer, contradicting the claim that it
is never negative. -/
theorem c1_paren_depth_counterexample :
    getParenDepth (String.toList ")") 1 = -1 ∧
    ¬ (0 ≤ getParenDepth (String.toList ")") 1) ∧ 1 ≤ (String.toList ")").length := by
  refine ⟨by decide, by decide, by decide⟩

/-- C1 (amended): for every text and every offset with
`offset ≤ length text` (the source indexes `text[i]` for each `i < offset`
and raises `IndexError` past the end, so larger offsets are outside the
function's domain), `get_paren_depth` equals the count of `'('` minus the
count of `')'` over `text[0:offset]` as a plain (unclamped) integer; it is
nonnegative exactly when the prefix has at least as many openers as
closers. -/
theorem c1_paren_depth_amended (text : List Char) (off : Nat)
    (hoff : off ≤ text.length) :
    getParenDepth text off =
      ((text.take off).count '(' : Int) - ((text.take off).count ')' : Int) ∧
    ((text.take off).count ')' ≤ (text.take off).count '(' →
      0 ≤ getParenDepth text off) := by
  have h := depthFold_eq (text.take off) 0
  constructor
  · unfold getParenDepth
    rw [h]; ring
  · intro hle
    unfold getParenDepth
    rw [h]
    have : ((text.take off).count ')' : Int) ≤ ((text.take off).count '(' : Int) := by
      exact_mod_cast hle
    omega

/-- Witness for C1's amended theorem at `text = "(()"`, `offset = 3`. -/
theorem c1_paren_depth_amended_witness :
    3 ≤ (String.toList "(()").length ∧
    getParenDepth (String.toList "(()") 3 =
      (((String.toList "(()").take 3).count '(' : Int) -
        (((String.toList "(()").take 3).count ')' : Int) ∧
    0 ≤ getParenDepth (String.toList "(()") 3 :=
  ⟨by decide,
   (c1_paren_depth_amended (String.toList "(()") 3 (by decide)).1,
   (c1_paren_depth_amended (String.toList "(()") 3 (by decide)).2 (by decide)⟩

/-! ### C3: nested if/then/else scoping -/

/-- C3: in `if A then (if B then C else D) else E`, anchoring on the outer
`else` (offsets 31–35) highlights exactly the outer `if` (0–2), outer
`then` (5–9) and outer `else` (31–35); anchoring on the inner `else`
(offsets 23–27) highlights exactly the inner `if` (11–13), inner `then`
(16–20) and inner `else` (23–27). -/
theorem c3_nested_scoping (pos : Nat) :
    (31 ≤ pos → pos ≤ 35 →
      highlightIfThenElse (String.toList "if A then (if B then C else D) else E") pos =
        some [⟨0, 2, .matched⟩, ⟨5, 9, .matched⟩, ⟨31, 35, .matched⟩]) ∧
    (23 ≤ pos → pos ≤ 27 →
      highlightIfThenElse (String.toList "if A then (if B then C else D) else E") pos =
        some [⟨11, 13, .matched⟩, ⟨16, 20, .matched⟩, ⟨23, 27, .matched⟩]) := by
  constructor
  · intro h1 h2
    have : pos = 31 ∨ pos = 32 ∨ pos = 33 ∨ pos = 34 ∨ pos = 35 := by omega
    rcases this with h | h | h | h | h <;> subst h <;> decide
  · intro h1 h2
    have : pos = 23 ∨ pos = 24 ∨ pos = 25 ∨ pos = 26 ∨ pos = 27 := by omega
    rcases this with h | h | h | h | h <;> subst h <;> decide

/-- Witness for C3 at the outer-`else` anchor 33 and inner-`else` anchor 24. -/
theorem c3_nested_scoping_witness :
    highlightIfThenElse (String.toList "if A then (if B then C else D) else E") 33 =
      some [⟨0, 2, .matched⟩, ⟨5, 9, .matched⟩, ⟨31, 35, .matched⟩] ∧
    highlightIfThenElse (String.toList "if A then (if B then C else D) else E") 24 =
      some [⟨11, 13, .matched⟩, ⟨16, 20, .matched⟩, ⟨23, 27, .matched⟩] :=
  ⟨(c3_nested_scoping 33).1 (by decide) (by decide),
   (c3_nested_scoping 24).2 (by decide) (by decide)⟩

/-! ### C6: whose-clause referent -/

/-- C6: in `names of files whose (it contains ".txt")` with the cursor on
`it` (offsets 22–24), the resolver yields exactly the pronoun span (22–24)
and the referent span of the single word `files` (9–14), both "matched". -/
theorem c6_whose_referent (pos : Nat) (h1 : 22 ≤ pos) (h2 : pos ≤ 24) :
    highlightItReferences (String.toList "names of files whose (it contains \".txt\")") pos =
      some [⟨22, 24, .matched⟩, ⟨9, 14, .matched⟩] := by
  have : pos = 22 ∨ pos = 23 ∨ pos = 24 := by omega
  rcases this with h | h | h <;> subst h <;> decide

/-- Witness for C6 with the cursor at offset 23. -/
theorem c6_whose_referent_witness :
    highlightItReferences (String.toList "names of files whose (it contains \".txt\")") 23 =
      some [⟨22, 24, .matched⟩, ⟨9, 14, .matched⟩] :=
  c6_whose_referent 23 (by decide) (by decide)

/-! ### C7: of-it referent with sibling propagation -/

/-- C7: in `(name of it, version of it) of operating system`, the cursor
on either `it` (offsets 9–11 or 24–26) resolves to the referent span of
`operating system` (31–47), and the other `it`, whose independently
resolved referent is the identical span, is also reported "matched". -/
theorem c7_of_it_referent (pos : Nat) :
    (9 ≤ pos → pos ≤ 11 →
      highlightItReferences (String.toList "(name of it, version of it) of operating system") pos =
        some [⟨9, 11, .matched⟩, ⟨31, 47, .matched⟩, ⟨24, 26, .matched⟩]) ∧
    (24 ≤ pos → pos ≤ 26 →
      highlightItReferences (String.toList "(name of it, version of it) of operating system") pos =
        some [⟨24, 26, .matched⟩, ⟨31, 47, .matched⟩, ⟨9, 11, .matched⟩]) := by
  constructor
  · intro h1 h2
    have : pos = 9 ∨ pos = 10 ∨ pos = 11 := by omega
    rcases this with h | h | h <;> subst h <;> decide
  · intro h1 h2
    have : pos = 24 ∨ pos = 25 ∨ pos = 26 := by omega
    rcases this with h | h | h <;> subst h <;> decide

/-- Witness for C7 with the cursor on each of the two `it` occurrences. -/
theorem c7_of_it_referent_witness :
    highlightItReferences (String.toList "(name of it, version of it) of operating system") 10 =
      some [⟨9, 11, .matched⟩, ⟨31, 47, .matched⟩, ⟨24, 26, .matched⟩] ∧
    highlightItReferences (String.toList "(name of it, version of it) of operating system") 25 =
      some [⟨24, 26, .matched⟩, ⟨31, 47, .matched⟩, ⟨9, 11, .matched⟩] :=
  ⟨(c7_of_it_referent 10).1 (by decide) (by decide),
   (c7_of_it_referent 25).2 (by decide) (by decide)⟩

/-! ### C10: the of-it pattern rejects an unclosed parenthesis -/

/-- C10: whenever the anchor pronoun is preceded (after right-trimming)
by `' of'` and the backward scan finds an enclosing `'('` that has no
matching `')'` afterwards, `find_of_it_context` yields no referent. -/
theorem c10_of_it_unclosed_paren (text : List Char) (itPos ps : Nat)
    (h1 : endsWithSpOf (rstripPy (text.take itPos)) = true)
    (h2 : backOpen text 0 itPos = some ps)
    (h3 : findForward text '(' ')' 1 (ps + 1) = none) :
    findOfItContext text itPos = none := by
  unfold findOfItContext
  simp only [h1, h2, h3]
  simp

/-- Witness for C10 at `text = "( of it"`, pronoun start 5: the enclosing
`'('` at 0 is never closed, so the of-it pattern yields nothing. -/
theorem c10_of_it_unclosed_paren_witness :
    findOfItContext (String.toList "( of it") 5 = none :=
  c10_of_it_unclosed_paren (String.toList "( of it") 5 0 (by decide) (by decide)
    (by decide)

/-! ### C8: pronoun with no referent is reported unmatched alone -/

/-- C8: when the cursor is on a pronoun occurrence and neither the
whose-clause pattern nor the of-it pattern yields a referent, the output
is exactly one "unmatched" span covering the anchor pronoun. -/
theorem c8_no_referent_unmatched (text : List Char) (pos : Nat) (cur : Kw)
    (hfind : (findKeywords itWords text).find? (fun k => k.start ≤ pos && pos ≤ k.stop)
      = some cur)
    (hwhose : findWhoseContext text cur.start = none)
    (hofit : findOfItContext text cur.start = none) :
    highlightItReferences text pos = some [⟨cur.start, cur.stop, .unmatched⟩] := by
  have hmem : cur ∈ findKeywords itWords text := List.mem_of_find?_eq_some hfind
  have hne : (findKeywords itWords text).isEmpty = false := by
    cases h : findKeywords itWords text with
    | nil => rw [h] at hmem; cases hmem
    | cons a l => simp [List.isEmpty]
  unfold highlightItReferences
  simp only [hne, hfind, Bool.false_eq_true, if_false]
  unfold findItReferent
  simp only [hwhose, hofit]

/-- Witness for C8 at `text = "it"`, cursor at offset 1. -/
theorem c8_no_referent_unmatched_witness :
    highlightItReferences (String.toList "it") 1 = some [⟨0, 2, .unmatched⟩] :=
  c8_no_referent_unmatched (String.toList "it") 1 ⟨"it", 0, 2⟩ (by decide) (by decide)
    (by decide)

/-! ### C2: totality / out-of-range clamping -/

theorem charAt_eq_get (text : List Char) (p : Nat) (h : p < text.length) :
    charAt text p = text.get ⟨p, h⟩ := by
  simp [charAt, List.getD_eq_getElem?_getD, List.getElem?_eq_getElem h]

theorem charAt_mem (text : List Char) (p : Nat) (h : p < text.length) :
    charAt text p ∈ text := by
  rw [charAt_eq_get text p h]
  exact List.get_mem text p h

theorem charAt_replicate (c : Char) (n p : Nat) (h : p < n) :
    charAt (List.replicate n c) p = c := by
  have hlen : p < (List.replicate n c).length := by simpa using h
  rw [charAt_eq_get _ p hlen]
  exact List.eq_of_mem_replicate (List.get_mem _ p hlen)

/-- At cursor position 0 the empty `char_before` is captured by the
substring test and the `not check_char` guard returns: no selections. -/
theorem gcbs_zero (text : List Char) : getCursorBracketSelections text 0 = [] := rfl

/-- Characterization of `get_cursor_bracket_selections` when the character
before the cursor is a bracket with a match. -/
theorem gcbs_before_some (text : List Char) (pos m : Nat) (h1 : 0 < pos)
    (h2 : isBracketChar (charAt text (pos - 1)) = true)
    (h3 : findMatchingBracket text (pos - 1) (charAt text (pos - 1)) = some m) :
    getCursorBracketSelections text pos =
      [⟨pos - 1, pos - 1 + 1, .matched⟩, ⟨m, m + 1, .matched⟩] := by
  unfold getCursorBracketSelections
  simp only [if_neg (show ¬ pos = 0 by omega), if_pos h2, h3]

/-- Characterization of `get_cursor_bracket_selections` when the character
before the cursor is a bracket with no match. -/
theorem gcbs_before_none (text : List Char) (pos : Nat) (h1 : 0 < pos)
    (h2 : isBracketChar (charAt text (pos - 1)) = true)
    (h3 : findMatchingBracket text (pos - 1) (charAt text (pos - 1)) = none) :
    getCursorBracketSelections text pos = [⟨pos - 1, pos - 1 + 1, .unmatched⟩] := by
  unfold getCursorBracketSelections
  simp only [if_neg (show ¬ pos = 0 by omega), if_pos h2, h3]

/-- Characterization of `get_cursor_bracket_selections` when the cursor is
past position 0, the character before it is not a bracket, and the
character at it is a bracket with a match. -/
theorem gcbs_at_some (text : List Char) (pos m : Nat) (h0 : 0 < pos)
    (h1 : isBracketChar (charAt text (pos - 1)) = false)
    (h2 : pos < text.length) (h2b : isBracketChar (charAt text pos) = true)
    (h3 : findMatchingBracket text pos (charAt text pos) = some m) :
    getCursorBracketSelections text pos =
      [⟨pos, pos + 1, .matched⟩, ⟨m, m + 1, .matched⟩] := by
  unfold getCursorBracketSelections
  have ha : (decide (pos < text.length) && isBracketChar (charAt text pos)) = true := by
    rw [h2b]
    simp [h2]
  simp only [if_neg (show ¬ pos = 0 by omega),
    if_neg (show ¬ isBracketChar (charAt text (pos - 1)) = true by simp [h1]),
    ha, if_true, h3]

/-- Characterization of `get_cursor_bracket_selections` when the cursor is
past position 0, the character before it is not a bracket, and the
character at it is a bracket with no match. -/
theorem gcbs_at_none (text : List Char) (pos : Nat) (h0 : 0 < pos)
    (h1 : isBracketChar (charAt text (pos - 1)) = false)
    (h2 : pos < text.length) (h2b : isBracketChar (charAt text pos) = true)
    (h3 : findMatchingBracket text pos (charAt text pos) = none) :
    getCursorBracketSelections text pos = [⟨pos, pos + 1, .unmatched⟩] := by
  unfold getCursorBracketSelections
  have ha : (decide (pos < text.length) && isBracketChar (charAt text pos)) = true := by
    rw [h2b]
    simp [h2]
  simp only [if_neg (show ¬ pos = 0 by omega),
    if_neg (show ¬ isBracketChar (charAt text (pos - 1)) = true by simp [h1]),
    ha, if_true, h3]

theorem findKeywords_nil (kset : List String) (text : List Char)
    (h : ∀ c ∈ text, isWordChar c = false) : findKeywords kset text = [] := by
  unfold findKeywords
  rw [List.filterMap_eq_nil]
  intro i _
  unfold keywordAt
  split
  · dsimp only
    rw [if_neg]
    intro hw
    rcases hw with ⟨hne, _⟩
    apply hne
    unfold wordFrom
    cases hdrop : text.drop i with
    | nil => simp
    | cons c rest =>
      have hc : c ∈ text := List.drop_subset i text (hdrop ▸ List.mem_cons_self c rest)
      simp [List.takeWhile_cons, h c hc]
  · rfl

theorem findForwardAux_none (ch target : Char) (l : List Char) (h : target ∉ l) :
    ∀ count i, findForwardAux ch target l count i = none := by
  induction l with
  | nil => intro count i; rfl
  | cons c rest ih =>
    intro count i
    have hct : c ≠ target := fun hc => h (hc ▸ List.mem_cons_self c rest)
    have hrest : target ∉ rest := fun hr => h (List.mem_cons_of_mem c hr)
    unfold findForwardAux
    by_cases h1 : c = ch
    · rw [if_pos h1]; exact ih hrest _ _
    · rw [if_neg h1, if_neg hct]; exact ih hrest _ _

theorem findForward_none (text : List Char) (ch target : Char) (h : target ∉ text) :
    ∀ count i, findForward text ch target count i = none := by
  intro count i
  unfold findForward
  exact findForwardAux_none ch target _ (fun hm => h (List.drop_subset i text hm)) _ _

theorem findBackward_none (text : List Char) (ch target : Char) (h : target ∉ text) :
    ∀ count p, p ≤ text.length → findBackward text ch target count p = none := by
  intro count p
  induction p generalizing count with
  | zero => intro _; rfl
  | succ p ih =>
    intro hle
    have hp : p < text.length := hle
    have hmem : charAt text p ∈ text := charAt_mem text p hp
    have hct : charAt text p ≠ target := fun hc => h (hc ▸ hmem)
    unfold findBackward
    by_cases h1 : charAt text p = ch
    · rw [if_pos h1]; exact ih _ (Nat.le_of_lt hp)
    · rw [if_neg h1, if_neg hct]; exact ih _ (Nat.le_of_lt hp)

theorem highlightItReferences_nil (text : List Char) (pos : Nat)
    (h : findKeywords itWords text = []) : highlightItReferences text pos = none := by
  unfold highlightItReferences
  rw [h]
  rfl

theorem highlightIfThenElse_nil (text : List Char) (pos : Nat)
    (h : findKeywords iteWords text = []) : highlightIfThenElse text pos = none := by
  unfold highlightIfThenElse
  rw [h]
  rfl

theorem replicate_no_word (c : Char) (hc : isWordChar c = false) (n : Nat) :
    ∀ x ∈ List.replicate n c, isWordChar x = false := by
  intro x hx
  rw [List.eq_of_mem_replicate hx]
  exact hc

/-- C2: the combined per-cursor analysis is total and defensively clamped:
empty text or an offset past the end yields no spans at all, and on the
pathological all-`')'` and all-`'('` texts of the spec it returns (for any
in-range offset) the single unmatched-bracket span rather than failing.
All operations of the core, including `prettyPrintRelevance` and
`compact`, are total functions of this embedding. -/
theorem c2_total_and_clamped (text : List Char) (pos n : Nat) :
    ((text = [] ∨ text.length < pos) → highlightMatchingBrackets text pos = []) ∧
    (pos ≤ n → highlightMatchingBrackets (List.replicate n ')') pos =
      if pos = 0 then [] else [⟨pos - 1, pos - 1 + 1, .unmatched⟩]) ∧
    (pos ≤ n → highlightMatchingBrackets (List.replicate n '(') pos =
      if pos = 0 then [] else [⟨pos - 1, pos - 1 + 1, .unmatched⟩]) := by
  refine ⟨?_, ?_, ?_⟩
  · intro h
    unfold highlightMatchingBrackets
    rw [if_pos h]
  · intro hle
    by_cases hn : n = 0
    · subst hn
      have hp0 : pos = 0 := Nat.le_zero.mp hle
      subst hp0
      rfl
    · have hpos : 0 < n := Nat.pos_of_ne_zero hn
      have hkwit : findKeywords itWords (List.replicate n ')') = [] :=
        findKeywords_nil _ _ (replicate_no_word ')' (by decide) n)
      have hkwite : findKeywords iteWords (List.replicate n ')') = [] :=
        findKeywords_nil _ _ (replicate_no_word ')' (by decide) n)
      have hno : '(' ∉ List.replicate n ')' := by
        intro hm
        exact absurd (List.eq_of_mem_replicate hm) (by decide)
      unfold highlightMatchingBrackets
      rw [if_neg (by
        push_neg
        constructor
        · intro he
          exact hn (by simpa using congrArg List.length he)
        · simp
          omega)]
      rw [highlightItReferences_nil _ _ hkwit, highlightIfThenElse_nil _ _ hkwite]
      show getCursorBracketSelections (List.replicate n ')') pos = _
      rcases Nat.eq_zero_or_pos pos with hp | hp
      · subst hp
        rw [if_pos rfl]
        exact gcbs_zero _
      · rw [if_neg (by omega)]
        have hpm : pos - 1 < n := by omega
        have hb : charAt (List.replicate n ')') (pos - 1) = ')' :=
          charAt_replicate ')' n (pos - 1) hpm
        have hmb : findMatchingBracket (List.replicate n ')') (pos - 1)
            (charAt (List.replicate n ')') (pos - 1)) = none := by
          rw [hb]
          unfold findMatchingBracket
          rw [if_neg (by decide), if_neg (by decide), if_neg (by decide), if_pos rfl]
          exact findBackward_none _ _ _ hno 1 (pos - 1)
            (by rw [List.length_replicate]; omega)
        rw [gcbs_before_none _ pos hp (by rw [hb]; decide) hmb]
  · intro hle
    by_cases hn : n = 0
    · subst hn
      have hp0 : pos = 0 := Nat.le_zero.mp hle
      subst hp0
      rfl
    · have hpos : 0 < n := Nat.pos_of_ne_zero hn
      have hkwit : findKeywords itWords (List.replicate n '(') = [] :=
        findKeywords_nil _ _ (replicate_no_word '(' (by decide) n)
      have hkwite : findKeywords iteWords (List.replicate n '(') = [] :=
        findKeywords_nil _ _ (replicate_no_word '(' (by decide) n)
      have hno : ')' ∉ List.replicate n '(' := by
        intro hm
        exact absurd (List.eq_of_mem_replicate hm) (by decide)
      unfold highlightMatchingBrackets
      rw [if_neg (by
        push_neg
        constructor
        · intro he
          exact hn (by simpa using congrArg List.length he)
        · simp
          omega)]
      rw [highlightItReferences_nil _ _ hkwit, highlightIfThenElse_nil _ _ hkwite]
      show getCursorBracketSelections (List.replicate n '(') pos = _
      rcases Nat.eq_zero_or_pos pos with hp | hp
      · subst hp
        rw [if_pos rfl]
        exact gcbs_zero _
      · rw [if_neg (by omega)]
        have hpm : pos - 1 < n := by omega
        have hb : charAt (List.replicate n '(') (pos - 1) = '(' :=
          charAt_replicate '(' n (pos - 1) hpm
        have hmb : findMatchingBracket (List.replicate n '(') (pos - 1)
            (charAt (List.replicate n '(') (pos - 1)) = none := by
          rw [hb]
          unfold findMatchingBracket
          rw [if_pos rfl]
          exact findForward_none _ _ _ hno 1 (pos - 1 + 1)
        rw [gcbs_before_none _ pos hp (by rw [hb]; decide) hmb]

/-- Witness for C2: an offset past the end yields no spans, cursor 0 on
`"))"` yields no spans (the empty `char_before` is captured and the
`not check_char` guard returns), and in-range offsets ≥ 1 on `"))"` and
`"(("` yield the single unmatched span. -/
theorem c2_total_and_clamped_witness :
    highlightMatchingBrackets (String.toList "x") 5 = [] ∧
    highlightMatchingBrackets (List.replicate 2 ')') 0 = [] ∧
    highlightMatchingBrackets (List.replicate 2 ')') 1 = [⟨0, 1, .unmatched⟩] ∧
    highlightMatchingBrackets (List.replicate 2 '(') 2 = [⟨1, 2, .unmatched⟩] := by
  refine ⟨(c2_total_and_clamped (String.toList "x") 5 0).1 (Or.inr (by decide)),
    ?_, ?_, ?_⟩
  · have h := (c2_total_and_clamped [] 0 2).2.1 (by decide)
    simpa using h
  · have h := (c2_total_and_clamped [] 1 2).2.1 (by decide)
    simpa using h
  · have h := (c2_total_and_clamped [] 2 2).2.2 (by decide)
    simpa using h

/-! ### C4: span count and uniform classification of the keyword matcher -/

theorem keywordAt_word_mem (kset : List String) (text : List Char) (i : Nat) (k : Kw)
    (h : keywordAt kset text i = some k) : k.word ∈ kset := by
  unfold keywordAt at h
  split at h
  · dsimp only at h
    split at h
    · rename_i hw
      cases h
      exact hw.2
    · exact absurd h (by simp)
  · exact absurd h (by simp)

theorem findKeywords_word_mem (kset : List String) (text : List Char) (k : Kw)
    (h : k ∈ findKeywords kset text) : k.word ∈ kset := by
  unfold findKeywords at h
  obtain ⟨i, _, hk⟩ := List.mem_filterMap.mp h
  exact keywordAt_word_mem kset text i k hk

theorem mkIteSpans_spec (i t e : Option Kw) :
    (mkIteSpans i t e).length = i.toList.length + t.toList.length + e.toList.length ∧
    ((i.isSome = true ∧ t.isSome = true ∧ e.isSome = true) →
      ∀ s ∈ mkIteSpans i t e, s.cls = SpanClass.matched) ∧
    (¬ (i.isSome = true ∧ t.isSome = true ∧ e.isSome = true) →
      ∀ s ∈ mkIteSpans i t e, s.cls = SpanClass.unmatched) := by
  cases i <;> cases t <;> cases e <;> simp [mkIteSpans]

theorem mkIteSpans_ne_nil (i t e : Option Kw)
    (h : i.isSome = true ∨ t.isSome = true ∨ e.isSome = true) :
    mkIteSpans i t e ≠ [] := by
  cases i <;> cases t <;> cases e <;> simp_all [mkIteSpans]

theorem findThenElseForIf_fst (text : List Char) (cur : Kw) (kws : List Kw) :
    (findThenElseForIf text cur kws).1 = some cur := rfl

theorem findIfElseForThen_snd (text : List Char) (cur : Kw) (kws : List Kw) :
    (findIfElseForThen text cur kws).2.1 = some cur := rfl

theorem findIfThenForElse_trd (text : List Char) (cur : Kw) (kws : List Kw) :
    (findIfThenForElse text cur kws).2.2 = some cur := rfl

/-- C4: with the cursor on a whole-word `if`/`then`/`else`, the matcher
emits one span per keyword of the group actually found — between 1 and 3
spans — and the classification is uniform: all "matched" exactly when all
three of `if`, `then`, `else` were found, all "unmatched" otherwise. -/
theorem c4_keyword_spans (text : List Char) (pos : Nat) (cur : Kw)
    (hcur : (findKeywords iteWords text).find? (fun k => k.start ≤ pos && pos ≤ k.stop)
      = some cur) :
    ∃ spans, highlightIfThenElse text pos = some spans ∧
      (∀ r, r = findMatchingIfThenElse text (findKeywords iteWords text) cur →
        spans.length = r.1.toList.length + r.2.1.toList.length + r.2.2.toList.length ∧
        1 ≤ spans.length ∧ spans.length ≤ 3 ∧
        ((r.1.isSome = true ∧ r.2.1.isSome = true ∧ r.2.2.isSome = true) →
          ∀ s ∈ spans, s.cls = SpanClass.matched) ∧
        (¬ (r.1.isSome = true ∧ r.2.1.isSome = true ∧ r.2.2.isSome = true) →
          ∀ s ∈ spans, s.cls = SpanClass.unmatched)) := by
  have hmem : cur ∈ findKeywords iteWords text := List.mem_of_find?_eq_some hcur
  have hword : cur.word ∈ iteWords := findKeywords_word_mem _ _ _ hmem
  have hword' : cur.word = "if" ∨ cur.word = "then" ∨ cur.word = "else" := by
    simpa [iteWords] using hword
  have hanchor :
      (findMatchingIfThenElse text (findKeywords iteWords text) cur).1 = some cur ∨
      (findMatchingIfThenElse text (findKeywords iteWords text) cur).2.1 = some cur ∨
      (findMatchingIfThenElse text (findKeywords iteWords text) cur).2.2 = some cur := by
    rcases hword' with h | h | h
    · left
      unfold findMatchingIfThenElse
      rw [if_pos h]
      exact findThenElseForIf_fst text cur _
    · right; left
      unfold findMatchingIfThenElse
      rw [if_neg (by rw [h]; decide), if_pos h]
      exact findIfElseForThen_snd text cur _
    · right; right
      unfold findMatchingIfThenElse
      rw [if_neg (by rw [h]; decide), if_neg (by rw [h]; decide), if_pos h]
      exact findIfThenForElse_trd text cur _
  have hsome :
      (findMatchingIfThenElse text (findKeywords iteWords text) cur).1.isSome = true ∨
      (findMatchingIfThenElse text (findKeywords iteWords text) cur).2.1.isSome = true ∨
      (findMatchingIfThenElse text (findKeywords iteWords text) cur).2.2.isSome = true := by
    rcases hanchor with h | h | h
    · left; rw [h]; rfl
    · right; left; rw [h]; rfl
    · right; right; rw [h]; rfl
  have hne : (findKeywords iteWords text).isEmpty = false := by
    cases h : findKeywords iteWords text with
    | nil => rw [h] at hmem; cases hmem
    | cons a l => simp [List.isEmpty]
  refine ⟨mkIteSpans (findMatchingIfThenElse text (findKeywords iteWords text) cur).1
    (findMatchingIfThenElse text (findKeywords iteWords text) cur).2.1
    (findMatchingIfThenElse text (findKeywords iteWords text) cur).2.2, ?_, ?_⟩
  · unfold highlightIfThenElse
    simp only [hne, Bool.false_eq_true, if_false, hcur]
    rw [if_neg (by
      have := mkIteSpans_ne_nil _ _ _ hsome
      simpa [List.isEmpty_iff] using this)]
  · intro r hr
    subst hr
    obtain ⟨hlen, hm, hu⟩ := mkIteSpans_spec
      (findMatchingIfThenElse text (findKeywords iteWords text) cur).1
      (findMatchingIfThenElse text (findKeywords iteWords text) cur).2.1
      (findMatchingIfThenElse text (findKeywords iteWords text) cur).2.2
    refine ⟨hlen, ?_, ?_, hm, hu⟩
    · rw [hlen]
      have h1 : ∀ o : Option Kw, o.isSome = true → o.toList.length = 1 := by
        intro o ho
        cases o with
        | none => simp at ho
        | some v => rfl
      rcases hsome with h | h | h <;> rw [h1 _ h] <;> omega
    · rw [hlen]
      have h1 : ∀ o : Option Kw, o.toList.length ≤ 1 := by
        intro o; cases o <;> simp
      have := h1 (findMatchingIfThenElse text (findKeywords iteWords text) cur).1
      have := h1 (findMatchingIfThenElse text (findKeywords iteWords text) cur).2.1
      have := h1 (findMatchingIfThenElse text (findKeywords iteWords text) cur).2.2
      omega

/-- Witness for C4 at `text = "if x"`, cursor at offset 1: only the `if`
is found, giving exactly one span, classified "unmatched". -/
theorem c4_keyword_spans_witness :
    ∃ spans, highlightIfThenElse (String.toList "if x") 1 = some spans ∧
      (∀ r, r = findMatchingIfThenElse (String.toList "if x")
          (findKeywords iteWords (String.toList "if x")) ⟨"if", 0, 2⟩ →
        spans.length = r.1.toList.length + r.2.1.toList.length + r.2.2.toList.length ∧
        1 ≤ spans.length ∧ spans.length ≤ 3 ∧
        ((r.1.isSome = true ∧ r.2.1.isSome = true ∧ r.2.2.isSome = true) →
          ∀ s ∈ spans, s.cls = SpanClass.matched) ∧
        (¬ (r.1.isSome = true ∧ r.2.1.isSome = true ∧ r.2.2.isSome = true) →
          ∀ s ∈ spans, s.cls = SpanClass.unmatched)) :=
  c4_keyword_spans (String.toList "if x") 1 ⟨"if", 0, 2⟩ (by decide)

/-! ### C5: bracket symmetry -/

theorem charAt_eq_getElem (text : List Char) (p : Nat) (h : p < text.length) :
    charAt text p = text[p] := by
  simp [charAt, List.getD_eq_getElem?_getD, List.getElem?_eq_getElem h]

/-- With only non-bracket characters strictly between the scan start and
the closer, the forward scan with counter 1 finds the closer. -/
theorem findForward_finds (text : List Char) (b c : Char) (j : Nat)
    (hbc : b ≠ c) (hj : j < text.length) (hcj : charAt text j = c) :
    ∀ n a, a ≤ j → j - a = n →
      (∀ k, a ≤ k → k < j → charAt text k ≠ b ∧ charAt text k ≠ c) →
      findForward text b c 1 a = some j := by
  intro n
  induction n with
  | zero =>
    intro a ha hn _
    have haj : a = j := by omega
    subst haj
    unfold findForward
    rw [List.drop_eq_getElem_cons hj]
    unfold findForwardAux
    rw [charAt_eq_getElem text a hj] at hcj
    rw [hcj]
    rw [if_neg (Ne.symm hbc), if_pos rfl, if_pos rfl]
  | succ n ih =>
    intro a ha hn hmid
    have haj : a < j := by omega
    have halen : a < text.length := lt_trans haj hj
    have hk := hmid a (le_refl a) haj
    rw [charAt_eq_getElem text a halen] at hk
    unfold findForward
    rw [List.drop_eq_getElem_cons halen]
    unfold findForwardAux
    rw [if_neg hk.1, if_neg hk.2]
    exact ih (a + 1) (by omega) (by omega)
      (fun k h1 h2 => hmid k (by omega) h2)

/-- With only non-bracket characters strictly between the opener and the
scan start, the backward scan with counter 1 finds the opener. -/
theorem findBackward_finds (text : List Char) (b c : Char) (i : Nat)
    (hbc : b ≠ c) (hi : i < text.length) (hci : charAt text i = b) :
    ∀ p, i < p →
      (∀ k, i < k → k < p → charAt text k ≠ b ∧ charAt text k ≠ c) →
      findBackward text c b 1 p = some i := by
  intro p
  induction p with
  | zero => intro h; omega
  | succ q ih =>
    intro hq hmid
    unfold findBackward
    rcases Nat.lt_or_ge i q with hlt | hge
    · have hk := hmid q hlt (Nat.lt_succ_self q)
      rw [if_neg hk.2, if_neg hk.1]
      exact ih hlt (fun k h1 h2 => hmid k h1 (by omega))
    · have : i = q := by omega
      subst this
      rw [hci]
      rw [if_neg hbc, if_pos rfl, if_pos rfl]

/-- Core of C5 part 1: a lone same-type pair is reported identically from
all four adjacent cursor positions. -/
theorem c5_part1_core (text : List Char) (b c : Char) (i j : Nat)
    (hbc : b ≠ c) (hob : isBracketChar b = true) (hoc : isBracketChar c = true)
    (hdo : findMatchingBracket text i b = findForward text b c 1 (i + 1))
    (hdc : findMatchingBracket text j c = findBackward text c b 1 j)
    (hi : i < text.length) (hj : j < text.length) (hij : i < j)
    (hci : charAt text i = b) (hcj : charAt text j = c)
    (honly : ∀ k, k < text.length → k ≠ i → k ≠ j → isBracketChar (charAt text k) = false) :
    ∀ p, (p = i ∧ 0 < i) ∨ p = i + 1 ∨ p = j ∨ p = j + 1 →
      getCursorBracketSelections text p = [⟨i, i + 1, .matched⟩, ⟨j, j + 1, .matched⟩] ∨
      getCursorBracketSelections text p = [⟨j, j + 1, .matched⟩, ⟨i, i + 1, .matched⟩] := by
  have hnb : ∀ k, i < k → k < j → charAt text k ≠ b ∧ charAt text k ≠ c := by
    intro k h1 h2
    have hkl : k < text.length := lt_trans h2 hj
    have := honly k hkl (by omega) (by omega)
    constructor
    · intro he
      rw [he, hob] at this
      cases this
    · intro he
      rw [he, hoc] at this
      cases this
  have hfor : findForward text b c 1 (i + 1) = some j :=
    findForward_finds text b c j hbc hj hcj (j - (i + 1)) (i + 1) (by omega) rfl
      (fun k h1 h2 => hnb k (by omega) h2)
  have hback : findBackward text c b 1 j = some i :=
    findBackward_finds text b c i hbc hi hci j hij hnb
  have hfmbO : findMatchingBracket text i b = some j := by rw [hdo]; exact hfor
  have hfmbC : findMatchingBracket text j c = some i := by rw [hdc]; exact hback
  intro p hp
  rcases hp with ⟨hp, h0i⟩ | hp | hp | hp
  · rw [hp]
    left
    exact gcbs_at_some text i j h0i (honly (i - 1) (by omega) (by omega) (by omega)) hi
      (by rw [hci]; exact hob) (by rw [hci]; exact hfmbO)
  · rw [hp]
    left
    have hsub : i + 1 - 1 = i := rfl
    have := gcbs_before_some text (i + 1) j (Nat.succ_pos i)
      (by rw [hsub, hci]; exact hob) (by rw [hsub, hci]; exact hfmbO)
    rw [hsub] at this
    exact this
  · rw [hp]
    by_cases hji : j = i + 1
    · left
      have hsub : j - 1 = i := by omega
      have hpos : 0 < j := by omega
      have := gcbs_before_some text j j hpos
        (by rw [hsub, hci]; exact hob) (by rw [hsub, hci]; exact hfmbO)
      rw [hsub] at this
      exact this
    · right
      exact gcbs_at_some text j i (by omega) (honly (j - 1) (by omega) (by omega) (by omega))
        hj (by rw [hcj]; exact hoc) (by rw [hcj]; exact hfmbC)
  · rw [hp]
    right
    have hsub : j + 1 - 1 = j := rfl
    have := gcbs_before_some text (j + 1) i (Nat.succ_pos j)
      (by rw [hsub, hcj]; exact hoc) (by rw [hsub, hcj]; exact hfmbC)
    rw [hsub] at this
    exact this

/-- Core of C5 part 2 (amended): an opener whose closer type never occurs
is reported as a single unmatched span from the position just after it,
and from the position on it provided the preceding character is not
itself a bracket. -/
theorem c5_part2_core (text : List Char) (b c : Char) (i : Nat)
    (hob : isBracketChar b = true)
    (hdo : findMatchingBracket text i b = findForward text b c 1 (i + 1))
    (hi : i < text.length) (hci : charAt text i = b) (hnc : c ∉ text) :
    getCursorBracketSelections text (i + 1) = [⟨i, i + 1, .unmatched⟩] ∧
    ((0 < i ∧ isBracketChar (charAt text (i - 1)) = false) →
      getCursorBracketSelections text i = [⟨i, i + 1, .unmatched⟩]) := by
  have hfmb : findMatchingBracket text i b = none := by
    rw [hdo]
    exact findForward_none text b c hnc 1 (i + 1)
  constructor
  · have hsub : i + 1 - 1 = i := rfl
    have := gcbs_before_none text (i + 1) (Nat.succ_pos i)
      (by rw [hsub, hci]; exact hob) (by rw [hsub, hci]; exact hfmb)
    rw [hsub] at this
    exact this
  · intro hpre
    exact gcbs_at_none text i hpre.1 hpre.2 hi (by rw [hci]; exact hob)
      (by rw [hci]; exact hfmb)

/-- C5 counterexample: in `text = "[("` the `'('` at offset 1 is an
unmatched opener with no `')'` anywhere, yet from the cursor position on
the bracket (offset 1) the matcher prefers the preceding `'['` and
reports the span at offset 0, not the opener alone. -/
theorem c5_bracket_symmetry_counterexample :
    charAt (String.toList "[(") 1 = '(' ∧ (')' ∉ String.toList "[(") ∧
    getCursorBracketSelections (String.toList "[(") 1 = [⟨0, 1, .unmatched⟩] ∧
    getCursorBracketSelections (String.toList "[(") 1 ≠ [⟨1, 2, .unmatched⟩] := by
  refine ⟨by decide, by decide, by decide, by decide⟩

/-- C5 (amended): (1) for a text whose only bracket characters are one
same-type pair, the matcher reports the same two positions, both
"matched", from any of the four cursor positions adjacent to either
bracket; (2) for an opener with no closer of its type anywhere in the
text, the matcher reports that opener alone as a single length-1
"unmatched" span from the position immediately after it unconditionally,
and from the position on it provided the character immediately before the
opener is not itself a bracket (otherwise the before-cursor preference
selects that bracket instead). -/
theorem c5_bracket_symmetry (text : List Char) (b c : Char) (i j : Nat)
    (hbc : (b, c) ∈ [('(', ')'), ('[', ']'), ('{', '}')]) :
    ((i < text.length ∧ j < text.length ∧ i < j ∧
      charAt text i = b ∧ charAt text j = c ∧
      (∀ k, k < text.length → k ≠ i → k ≠ j → isBracketChar (charAt text k) = false)) →
     ∀ p, (p = i ∧ 0 < i) ∨ p = i + 1 ∨ p = j ∨ p = j + 1 →
       getCursorBracketSelections text p = [⟨i, i + 1, .matched⟩, ⟨j, j + 1, .matched⟩] ∨
       getCursorBracketSelections text p = [⟨j, j + 1, .matched⟩, ⟨i, i + 1, .matched⟩]) ∧
    ((i < text.length ∧ charAt text i = b ∧ c ∉ text) →
      getCursorBracketSelections text (i + 1) = [⟨i, i + 1, .unmatched⟩] ∧
      ((0 < i ∧ isBracketChar (charAt text (i - 1)) = false) →
        getCursorBracketSelections text i = [⟨i, i + 1, .unmatched⟩])) ∧
    getCursorBracketSelections text 0 = [] := by
  have hbc' : b = '(' ∧ c = ')' ∨ b = '[' ∧ c = ']' ∨ b = '{' ∧ c = '}' := by
    simpa [Prod.ext_iff] using hbc
  have hneq : b ≠ c := by
    rcases hbc' with ⟨h1, h2⟩ | ⟨h1, h2⟩ | ⟨h1, h2⟩ <;> subst h1 <;> subst h2 <;> decide
  have hob : isBracketChar b = true := by
    rcases hbc' with ⟨h1, h2⟩ | ⟨h1, h2⟩ | ⟨h1, h2⟩ <;> subst h1 <;> decide
  have hoc : isBracketChar c = true := by
    rcases hbc' with ⟨h1, h2⟩ | ⟨h1, h2⟩ | ⟨h1, h2⟩ <;> subst h2 <;> decide
  have hdo : ∀ x, findMatchingBracket text x b = findForward text b c 1 (x + 1) := by
    intro x
    rcases hbc' with ⟨h1, h2⟩ | ⟨h1, h2⟩ | ⟨h1, h2⟩ <;> subst h1 <;> subst h2 <;>
      · unfold findMatchingBracket
        simp
  have hdc : ∀ x, findMatchingBracket text x c = findBackward text c b 1 x := by
    intro x
    rcases hbc' with ⟨h1, h2⟩ | ⟨h1, h2⟩ | ⟨h1, h2⟩ <;> subst h1 <;> subst h2 <;>
      · unfold findMatchingBracket
        simp
  refine ⟨?_, ?_, gcbs_zero text⟩
  · rintro ⟨hi, hj, hij, hci, hcj, honly⟩
    exact c5_part1_core text b c i j hneq hob hoc (hdo i) (hdc j) hi hj hij hci hcj honly
  · rintro ⟨hi, hci, hnc⟩
    exact c5_part2_core text b c i hob (hdo i) hi hci hnc

/-- Witness for C5: part 1 on `"(x)"` (pair at offsets 0 and 2, cursor at
offset 1), part 2 on `"(x"` (opener at offset 0, cursor after it) and on
`"x("` (opener at offset 1, cursor on it), and the cursor-at-0 clause. -/
theorem c5_bracket_symmetry_witness :
    (getCursorBracketSelections (String.toList "(x)") 1 =
        [⟨0, 1, .matched⟩, ⟨2, 3, .matched⟩] ∨
      getCursorBracketSelections (String.toList "(x)") 1 =
        [⟨2, 3, .matched⟩, ⟨0, 1, .matched⟩]) ∧
    getCursorBracketSelections (String.toList "(x") 1 = [⟨0, 1, .unmatched⟩] ∧
    getCursorBracketSelections (String.toList "x(") 1 = [⟨1, 2, .unmatched⟩] ∧
    getCursorBracketSelections (String.toList "(x") 0 = [] := by
  refine ⟨?_, ?_, ?_, ?_⟩
  · exact (c5_bracket_symmetry (String.toList "(x)") '(' ')' 0 2 (by decide)).1
      ⟨by decide, by decide, by decide, by decide, by decide, by decide⟩ 1 (Or.inr (Or.inl rfl))
  · exact ((c5_bracket_symmetry (String.toList "(x") '(' ')' 0 0 (by decide)).2.1
      ⟨by decide, by decide, by decide⟩).1
  · exact ((c5_bracket_symmetry (String.toList "x(") '(' ')' 1 0 (by decide)).2.1
      ⟨by decide, by decide, by decide⟩).2 ⟨by decide, by decide⟩
  · exact (c5_bracket_symmetry (String.toList "(x") '(' ')' 0 0 (by decide)).2.2

/-! ### C9: round-trip whitespace normalization

The comparison "same token sequence (parens, if/then/else keywords, and
text-run contents), whitespace differences only" is formalized by a
canonical item stream: parens and whole-word `if`/`then`/`else` keywords
become delimiter items, and the remaining text contributes its
whitespace-separated words.  `canon` computes this stream directly from a
string; `normToks` applies it to a token list of
`_tokenize_for_pretty_print`. -/

/-- A whitespace-insensitive token item. -/
inductive Item where
  | lp
  | rp
  | kw : String → Item
  | word : List Char → Item
deriving DecidableEq, Repr

/-- Emit the pending word accumulator, if nonempty. -/
def canonFlush (acc : List Char) : List Item :=
  if acc = [] then [] else [Item.word acc]

/-- Single-pass canonical scan.  `bnd` is the word-boundary flag (true at
the start and after any non-word character), `acc` the pending word-run.
Whitespace and parens are hard separators; a maximal word-character run
equal (case-insensitively) to `if`/`then`/`else` at a boundary becomes a
keyword item. -/
def canonGo (bnd : Bool) (acc : List Char) : List Char → List Item
  | [] => canonFlush acc
  | c :: rest =>
    if isPyWs c then canonFlush acc ++ canonGo true [] rest
    else if c = '(' then canonFlush acc ++ Item.lp :: canonGo true [] rest
    else if c = ')' then canonFlush acc ++ Item.rp :: canonGo true [] rest
    else if h : bnd = true ∧ lcString ((c :: rest).takeWhile isWordChar) ∈ iteWords then
      canonFlush acc ++
        Item.kw (lcString ((c :: rest).takeWhile isWordChar)) ::
          canonGo false [] ((c :: rest).dropWhile isWordChar)
    else canonGo (!isWordChar c) (acc ++ [c]) rest
termination_by l => l.length
decreasing_by
  · simp
  · simp
  · simp
  · have hc : isWordChar c = true := by
      by_contra hnc
      have hnc' : isWordChar c = false := by
        revert hnc
        cases isWordChar c <;> simp
      have ht : (c :: rest).takeWhile isWordChar = [] := by
        simp [List.takeWhile_cons, hnc']
      rw [ht] at h
      exact absurd h.2 (by decide)
    have hd : (c :: rest).dropWhile isWordChar = rest.dropWhile isWordChar := by
      simp [List.dropWhile_cons, hc]
    rw [hd]
    have hs := (List.dropWhile_sublist (l := rest) (p := isWordChar)).length_le
    simp only [List.length_cons]
    omega
  · simp

/-- The canonical whitespace-insensitive item stream of a string. -/
def canon (u : List Char) : List Item :=
  canonGo true [] u

/-- The canonical item stream of a token list. -/
def normToks (toks : List (List Char)) : List Item :=
  (toks.map canon).join

/-! #### takeWhile / dropWhile splitting helpers -/

theorem takeWhile_append_stop (p : Char → Bool) (d : Char) (hd : p d = false) :
    ∀ (x y : List Char), (x ++ d :: y).takeWhile p = x.takeWhile p := by
  intro x y
  induction x with
  | nil => simp [List.takeWhile_cons, hd]
  | cons c x' ih =>
    by_cases hc : p c = true
    · simp [List.takeWhile_cons, hc, ih]
    · simp [List.takeWhile_cons, hc]

theorem dropWhile_append_stop (p : Char → Bool) (d : Char) (hd : p d = false) :
    ∀ (x y : List Char), (x ++ d :: y).dropWhile p = x.dropWhile p ++ d :: y := by
  intro x y
  induction x with
  | nil => simp [List.dropWhile_cons, hd]
  | cons c x' ih =>
    by_cases hc : p c = true
    · simp [List.dropWhile_cons, hc, ih]
    · simp [List.dropWhile_cons, hc]

theorem takeWhile_append_stop_mem (p : Char → Bool) :
    ∀ (x z : List Char), (∃ d ∈ x, p d = false) →
      (x ++ z).takeWhile p = x.takeWhile p := by
  intro x z
  induction x with
  | nil => rintro ⟨d, hd, _⟩; cases hd
  | cons c x' ih =>
    rintro ⟨d, hd, hpd⟩
    by_cases hc : p c = true
    · have hdx' : d ∈ x' := by
        rcases List.mem_cons.mp hd with h | h
        · subst h; rw [hpd] at hc; cases hc
        · exact h
      simp [List.takeWhile_cons, hc, ih ⟨d, hdx', hpd⟩]
    · simp [List.takeWhile_cons, hc]

theorem dropWhile_append_stop_mem (p : Char → Bool) :
    ∀ (x z : List Char), (∃ d ∈ x, p d = false) →
      (x ++ z).dropWhile p = x.dropWhile p ++ z := by
  intro x z
  induction x with
  | nil => rintro ⟨d, hd, _⟩; cases hd
  | cons c x' ih =>
    rintro ⟨d, hd, hpd⟩
    by_cases hc : p c = true
    · have hdx' : d ∈ x' := by
        rcases List.mem_cons.mp hd with h | h
        · subst h; rw [hpd] at hc; cases hc
        · exact h
      simp [List.dropWhile_cons, hc, ih ⟨d, hdx', hpd⟩]
    · simp [List.dropWhile_cons, hc]

theorem takeWhile_append_all (p : Char → Bool) :
    ∀ (x z : List Char), (∀ d ∈ x, p d = true) →
      (x ++ z).takeWhile p = x ++ z.takeWhile p := by
  intro x z
  induction x with
  | nil => intro _; rfl
  | cons c x' ih =>
    intro h
    have hc : p c = true := h c (List.mem_cons_self c x')
    simp [List.takeWhile_cons, hc, ih (fun d hd => h d (List.mem_cons_of_mem c hd))]

theorem dropWhile_append_all (p : Char → Bool) :
    ∀ (x z : List Char), (∀ d ∈ x, p d = true) →
      (x ++ z).dropWhile p = z.dropWhile p := by
  intro x z
  induction x with
  | nil => intro _; rfl
  | cons c x' ih =>
    intro h
    have hc : p c = true := h c (List.mem_cons_self c x')
    simp [List.dropWhile_cons, hc, ih (fun d hd => h d (List.mem_cons_of_mem c hd))]

theorem head?_dropWhile (p : Char → Bool) :
    ∀ (l : List Char) (c : Char), (l.dropWhile p).head? = some c → p c = false := by
  intro l
  induction l with
  | nil => intro c h; cases h
  | cons a l' ih =>
    intro c h
    by_cases ha : p a = true
    · rw [List.dropWhile_cons, if_pos ha] at h
      exact ih c h
    · rw [List.dropWhile_cons, if_neg ha] at h
      cases h
      exact Bool.not_eq_true _ ▸ ha

/-! #### Character-class facts -/

theorem isPyWs_not_word (c : Char) (h : isPyWs c = true) : isWordChar c = false := by
  have h' : ((((c = ' ' ∨ c = '\t') ∨ c = '\n') ∨ c = '\r') ∨ c = '\x0b') ∨ c = '\x0c' := by
    simpa [isPyWs] using h
  rcases h' with ⟨⟨⟨⟨h | h⟩ | h⟩ | h⟩ | h⟩ | h <;> subst h <;> decide

theorem isWordChar_not_pyws (c : Char) (h : isWordChar c = true) : isPyWs c = false := by
  by_contra hc
  have : isPyWs c = true := by
    revert hc
    cases isPyWs c <;> simp
  rw [isPyWs_not_word c this] at h
  cases h

theorem isWordChar_not_lp (c : Char) (h : isWordChar c = true) : c ≠ '(' := by
  intro he
  subst he
  cases h

theorem isWordChar_not_rp (c : Char) (h : isWordChar c = true) : c ≠ ')' := by
  intro he
  subst he
  cases h

/-! #### canonGo case lemmas -/

theorem canonGo_nil (bnd : Bool) (acc : List Char) : canonGo bnd acc [] = canonFlush acc := by
  simp [canonGo]

theorem canonGo_ws (bnd : Bool) (acc : List Char) (c : Char) (rest : List Char)
    (h : isPyWs c = true) :
    canonGo bnd acc (c :: rest) = canonFlush acc ++ canonGo true [] rest := by
  rw [canonGo]
  simp [h]

theorem canonGo_lp (bnd : Bool) (acc : List Char) (rest : List Char) :
    canonGo bnd acc ('(' :: rest) = canonFlush acc ++ Item.lp :: canonGo true [] rest := by
  rw [canonGo]
  simp [isPyWs]

theorem canonGo_rp (bnd : Bool) (acc : List Char) (rest : List Char) :
    canonGo bnd acc (')' :: rest) = canonFlush acc ++ Item.rp :: canonGo true [] rest := by
  rw [canonGo]
  simp [isPyWs]

theorem canonGo_kw (acc : List Char) (c : Char) (rest : List Char)
    (hws : isPyWs c = false) (hlp : c ≠ '(') (hrp : c ≠ ')')
    (h : lcString ((c :: rest).takeWhile isWordChar) ∈ iteWords) :
    canonGo true acc (c :: rest) =
      canonFlush acc ++
        Item.kw (lcString ((c :: rest).takeWhile isWordChar)) ::
          canonGo false [] ((c :: rest).dropWhile isWordChar) := by
  rw [canonGo]
  simp [hws, hlp, hrp, h]

theorem canonGo_consume (bnd : Bool) (acc : List Char) (c : Char) (rest : List Char)
    (hws : isPyWs c = false) (hlp : c ≠ '(') (hrp : c ≠ ')')
    (h : ¬ (bnd = true ∧ lcString ((c :: rest).takeWhile isWordChar) ∈ iteWords)) :
    canonGo bnd acc (c :: rest) = canonGo (!isWordChar c) (acc ++ [c]) rest := by
  rw [canonGo]
  simp [hws, hlp, hrp, h]

/-! #### canonGo splitting lemmas -/

theorem bneF {b : Bool} (h : ¬ b = true) : b = false := by
  cases b
  · rfl
  · exact absurd rfl h

/-- Splitting the canonical scan at a hard one-character separator
(whitespace or a paren): everything to the right restarts at a fresh
boundary. -/
theorem canonGo_split (d : Char) (sep : List Item)
    (hd : (isPyWs d = true ∧ sep = []) ∨ (d = '(' ∧ sep = [Item.lp]) ∨
      (d = ')' ∧ sep = [Item.rp])) (y : List Char) :
    ∀ n (a : List Char), a.length ≤ n → ∀ bnd acc,
      canonGo bnd acc (a ++ d :: y) = canonGo bnd acc a ++ sep ++ canonGo true [] y := by
  have hdw : isWordChar d = false := by
    rcases hd with ⟨h, _⟩ | ⟨h, _⟩ | ⟨h, _⟩
    · exact isPyWs_not_word d h
    · subst h; decide
    · subst h; decide
  have hbase : ∀ bnd acc, canonGo bnd acc (d :: y) =
      canonFlush acc ++ sep ++ canonGo true [] y := by
    intro bnd acc
    rcases hd with ⟨h, hs⟩ | ⟨h, hs⟩ | ⟨h, hs⟩ <;> subst hs
    · rw [canonGo_ws bnd acc d y h]
      simp
    · subst h
      rw [canonGo_lp]
      simp
    · subst h
      rw [canonGo_rp]
      simp
  intro n
  induction n with
  | zero =>
    intro a ha bnd acc
    have h0 : a = [] := List.length_eq_zero.mp (Nat.le_zero.mp ha)
    subst h0
    simp only [List.nil_append]
    rw [hbase, canonGo_nil]
  | succ n ih =>
    intro a ha bnd acc
    cases a with
    | nil =>
      simp only [List.nil_append]
      rw [hbase, canonGo_nil]
    | cons c a' =>
      have ha' : a'.length ≤ n := by
        simp only [List.length_cons] at ha
        omega
      simp only [List.cons_append]
      by_cases hws : isPyWs c = true
      · rw [canonGo_ws bnd acc c _ hws, canonGo_ws bnd acc c a' hws]
        rw [ih a' ha' true []]
        simp [List.append_assoc]
      · by_cases hlp : c = '('
        · subst hlp
          rw [canonGo_lp, canonGo_lp]
          rw [ih a' ha' true []]
          simp [List.append_assoc]
        · by_cases hrp : c = ')'
          · subst hrp
            rw [canonGo_rp, canonGo_rp]
            rw [ih a' ha' true []]
            simp [List.append_assoc]
          · have hws' := bneF hws
            have htw : (c :: (a' ++ d :: y)).takeWhile isWordChar =
                (c :: a').takeWhile isWordChar :=
              takeWhile_append_stop isWordChar d hdw (c :: a') y
            have hdrw : (c :: (a' ++ d :: y)).dropWhile isWordChar =
                (c :: a').dropWhile isWordChar ++ d :: y :=
              dropWhile_append_stop isWordChar d hdw (c :: a') y
            by_cases hkw : bnd = true ∧ lcString ((c :: a').takeWhile isWordChar) ∈ iteWords
            · obtain ⟨hb, hkw'⟩ := hkw
              subst hb
              have hcw : isWordChar c = true := by
                by_contra hnc
                have : (c :: a').takeWhile isWordChar = [] := by
                  simp [List.takeWhile_cons, bneF hnc]
                rw [this] at hkw'
                exact absurd hkw' (by decide)
              rw [canonGo_kw acc c _ hws' hlp hrp (by rw [htw]; exact hkw'),
                  canonGo_kw acc c a' hws' hlp hrp hkw']
              rw [htw, hdrw]
              have hlen : ((c :: a').dropWhile isWordChar).length ≤ n := by
                have h1 : (c :: a').dropWhile isWordChar = a'.dropWhile isWordChar := by
                  simp [List.dropWhile_cons, hcw]
                rw [h1]
                have := (List.dropWhile_sublist (l := a') (p := isWordChar)).length_le
                omega
              rw [ih _ hlen false []]
              simp [List.append_assoc]
            · have hkw2 : ¬ (bnd = true ∧
                  lcString ((c :: (a' ++ d :: y)).takeWhile isWordChar) ∈ iteWords) := by
                rw [htw]
                exact hkw
              rw [canonGo_consume bnd acc c _ hws' hlp hrp hkw2,
                  canonGo_consume bnd acc c a' hws' hlp hrp hkw]
              exact ih a' ha' (!isWordChar c) (acc ++ [c])

/-- The boundary flag is irrelevant when the next character is not a word
character. -/
theorem canonGo_bnd_irrel (y : List Char) (acc : List Char)
    (hy : ∀ c, y.head? = some c → isWordChar c = false) (b1 b2 : Bool) :
    canonGo b1 acc y = canonGo b2 acc y := by
  cases y with
  | nil => rw [canonGo_nil, canonGo_nil]
  | cons c rest =>
    have hc : isWordChar c = false := hy c rfl
    by_cases hws : isPyWs c = true
    · rw [canonGo_ws _ _ _ _ hws, canonGo_ws _ _ _ _ hws]
    · by_cases hlp : c = '('
      · subst hlp
        rw [canonGo_lp, canonGo_lp]
      · by_cases hrp : c = ')'
        · subst hrp
          rw [canonGo_rp, canonGo_rp]
        · have htw : (c :: rest).takeWhile isWordChar = [] := by
            simp [List.takeWhile_cons, hc]
          have hcond : ∀ b : Bool,
              ¬ (b = true ∧ lcString ((c :: rest).takeWhile isWordChar) ∈ iteWords) := by
            intro b hb
            rw [htw] at hb
            exact absurd hb.2 (by decide)
          rw [canonGo_consume b1 acc c rest (bneF hws) hlp hrp (hcond b1),
              canonGo_consume b2 acc c rest (bneF hws) hlp hrp (hcond b2)]

theorem mem_of_getLast?_eq : ∀ (l : List Char) (x : Char), l.getLast? = some x → x ∈ l := by
  intro l
  induction l with
  | nil => intro x h; cases h
  | cons c l' ih =>
    intro x h
    cases l' with
    | nil =>
      simp only [List.getLast?_singleton, Option.some.injEq] at h
      subst h
      exact List.mem_singleton_self _
    | cons b l'' =>
      rw [List.getLast?_cons_cons] at h
      exact List.mem_cons_of_mem c (ih x h)

theorem getLast?_some_of_ne_nil : ∀ (l : List Char), l ≠ [] → ∃ x, l.getLast? = some x := by
  intro l
  induction l with
  | nil => intro h; exact absurd rfl h
  | cons c l' ih =>
    intro _
    cases l' with
    | nil => exact ⟨c, rfl⟩
    | cons b l'' =>
      obtain ⟨x, hx⟩ := ih (by simp)
      exact ⟨x, by rw [List.getLast?_cons_cons]; exact hx⟩

/-- Splitting the canonical scan at a whole-word keyword occurrence: the
left part ends in a non-word character (or is empty at a boundary), the
keyword follows, and the right part starts with a non-word character. -/
theorem canonGo_split_kw (w y : List Char)
    (hw1 : w ≠ []) (hw2 : ∀ c ∈ w, isWordChar c = true) (hw3 : lcString w ∈ iteWords)
    (hy : ∀ c, y.head? = some c → isWordChar c = false) :
    ∀ n (a : List Char), a.length ≤ n → ∀ bnd acc,
      (∀ c, a.getLast? = some c → isWordChar c = false) →
      (a = [] → bnd = true) →
      canonGo bnd acc (a ++ w ++ y) =
        canonGo bnd acc a ++ Item.kw (lcString w) :: canonGo true [] y := by
  have hbase : ∀ acc, canonGo true acc (w ++ y) =
      canonFlush acc ++ Item.kw (lcString w) :: canonGo true [] y := by
    intro acc
    cases w with
    | nil => exact absurd rfl hw1
    | cons wc w' =>
      have hwc : isWordChar wc = true := hw2 wc (List.mem_cons_self wc w')
      have htwy : y.takeWhile isWordChar = [] := by
        cases y with
        | nil => rfl
        | cons yc y' =>
          simp [List.takeWhile_cons, hy yc rfl]
      have hdwy : y.dropWhile isWordChar = y := by
        cases y with
        | nil => rfl
        | cons yc y' =>
          simp [List.dropWhile_cons, hy yc rfl]
      have htw : ((wc :: w') ++ y).takeWhile isWordChar = wc :: w' := by
        rw [takeWhile_append_all isWordChar (wc :: w') y hw2, htwy]
        simp
      have hdrw : ((wc :: w') ++ y).dropWhile isWordChar = y := by
        rw [dropWhile_append_all isWordChar (wc :: w') y hw2, hdwy]
      have hcons : (wc :: w') ++ y = wc :: (w' ++ y) := rfl
      rw [hcons] at htw hdrw
      show canonGo true acc (wc :: (w' ++ y)) = _
      rw [canonGo_kw acc wc (w' ++ y) (isWordChar_not_pyws wc hwc)
        (isWordChar_not_lp wc hwc) (isWordChar_not_rp wc hwc) (by rw [htw]; exact hw3)]
      rw [htw, hdrw]
      rw [canonGo_bnd_irrel y [] hy false true]
  intro n
  induction n with
  | zero =>
    intro a ha bnd acc _ h0
    have h0' : a = [] := List.length_eq_zero.mp (Nat.le_zero.mp ha)
    subst h0'
    rw [h0 rfl]
    simp only [List.nil_append]
    rw [hbase, canonGo_nil]
  | succ n ih =>
    intro a ha bnd acc hlast h0
    cases a with
    | nil =>
      rw [h0 rfl]
      simp only [List.nil_append]
      rw [hbase, canonGo_nil]
    | cons c a' =>
      have ha' : a'.length ≤ n := by
        simp only [List.length_cons] at ha
        omega
      have hlast' : a' ≠ [] → ∀ x, a'.getLast? = some x → isWordChar x = false := by
        intro hne x hx
        apply hlast x
        cases a' with
        | nil => exact absurd rfl hne
        | cons b l => rw [List.getLast?_cons_cons]; exact hx
      simp only [List.cons_append]
      by_cases hws : isPyWs c = true
      · rw [canonGo_ws bnd acc c _ hws, canonGo_ws bnd acc c a' hws]
        rw [ih a' ha' true []
          (fun x hx => hlast' (by rintro rfl; cases hx) x hx) (fun _ => rfl)]
        simp [List.append_assoc]
      · by_cases hlp : c = '('
        · subst hlp
          rw [canonGo_lp, canonGo_lp]
          rw [ih a' ha' true []
            (fun x hx => hlast' (by rintro rfl; cases hx) x hx) (fun _ => rfl)]
          simp [List.append_assoc]
        · by_cases hrp : c = ')'
          · subst hrp
            rw [canonGo_rp, canonGo_rp]
            rw [ih a' ha' true []
              (fun x hx => hlast' (by rintro rfl; cases hx) x hx) (fun _ => rfl)]
            simp [List.append_assoc]
          · have hws' := bneF hws
            -- the last element of c :: a' is a non-word character
            have hlastc : ∃ z ∈ c :: a', isWordChar z = false := by
              obtain ⟨z, hz⟩ := getLast?_some_of_ne_nil (c :: a') (by simp)
              exact ⟨z, mem_of_getLast?_eq _ _ hz, hlast z hz⟩
            have htw : (c :: (a' ++ w ++ y)).takeWhile isWordChar =
                (c :: a').takeWhile isWordChar := by
              have : c :: (a' ++ w ++ y) = (c :: a') ++ (w ++ y) := by simp
              rw [this]
              exact takeWhile_append_stop_mem isWordChar (c :: a') (w ++ y) hlastc
            have hdrw : (c :: (a' ++ w ++ y)).dropWhile isWordChar =
                (c :: a').dropWhile isWordChar ++ (w ++ y) := by
              have : c :: (a' ++ w ++ y) = (c :: a') ++ (w ++ y) := by simp
              rw [this]
              exact dropWhile_append_stop_mem isWordChar (c :: a') (w ++ y) hlastc
            by_cases hkw : bnd = true ∧ lcString ((c :: a').takeWhile isWordChar) ∈ iteWords
            · obtain ⟨hb, hkw'⟩ := hkw
              subst hb
              have hcw : isWordChar c = true := by
                by_contra hnc
                have : (c :: a').takeWhile isWordChar = [] := by
                  simp [List.takeWhile_cons, bneF hnc]
                rw [this] at hkw'
                exact absurd hkw' (by decide)
              rw [canonGo_kw acc c _ hws' hlp hrp (by rw [htw]; exact hkw'),
                  canonGo_kw acc c a' hws' hlp hrp hkw']
              rw [htw, hdrw]
              have hsuffix : (c :: a').dropWhile isWordChar ≠ [] := by
                intro he
                rw [List.dropWhile_eq_nil_iff] at he
                obtain ⟨z, hz, hzw⟩ := hlastc
                rw [he z hz] at hzw
                cases hzw
              have hlastd : ∀ x, ((c :: a').dropWhile isWordChar).getLast? = some x →
                  isWordChar x = false := by
                intro x hx
                apply hlast x
                have hdec := List.takeWhile_append_dropWhile (p := isWordChar) (l := c :: a')
                calc (c :: a').getLast? = ((c :: a').takeWhile isWordChar ++
                      (c :: a').dropWhile isWordChar).getLast? := by rw [hdec]
                  _ = ((c :: a').dropWhile isWordChar).getLast? :=
                      List.getLast?_append_of_ne_nil _ hsuffix
                  _ = some x := hx
              have hlen : ((c :: a').dropWhile isWordChar).length ≤ n := by
                have h1 : (c :: a').dropWhile isWordChar = a'.dropWhile isWordChar := by
                  simp [List.dropWhile_cons, hcw]
                rw [h1]
                have := (List.dropWhile_sublist (l := a') (p := isWordChar)).length_le
                omega
              rw [← List.append_assoc ((c :: a').dropWhile isWordChar) w y]
              rw [ih _ hlen false [] hlastd (fun he => absurd he hsuffix)]
              simp [List.append_assoc]
            · have hkw2 : ¬ (bnd = true ∧
                  lcString ((c :: (a' ++ w ++ y)).takeWhile isWordChar) ∈ iteWords) := by
                rw [htw]
                exact hkw
              rw [canonGo_consume bnd acc c _ hws' hlp hrp hkw2,
                  canonGo_consume bnd acc c a' hws' hlp hrp hkw]
              cases ha2 : a' with
              | nil =>
                subst ha2
                have hc : isWordChar c = false := hlast c rfl
                rw [ih [] (by omega) (!isWordChar c) (acc ++ [c]) (by intro x hx; cases hx)
                  (fun _ => by rw [hc]; rfl)]
              | cons b l =>
                subst ha2
                exact ih (b :: l) ha' (!isWordChar c) (acc ++ [c])
                  (hlast' (by simp)) (by simp)

/-! #### canon corollaries -/

theorem canon_nil : canon [] = [] := by
  rw [canon, canonGo_nil]
  rfl

theorem canon_ws_cons (c : Char) (y : List Char) (h : isPyWs c = true) :
    canon (c :: y) = canon y := by
  rw [canon, canonGo_ws _ _ _ _ h]
  rfl

theorem canon_split_ws (c : Char) (h : isPyWs c = true) (a y : List Char) :
    canon (a ++ c :: y) = canon a ++ canon y := by
  have := canonGo_split c [] (Or.inl ⟨h, rfl⟩) y a.length a le_rfl true []
  simpa [canon] using this

theorem canon_split_lp (a y : List Char) :
    canon (a ++ '(' :: y) = canon a ++ Item.lp :: canon y := by
  have := canonGo_split '(' [Item.lp] (Or.inr (Or.inl ⟨rfl, rfl⟩)) y a.length a le_rfl true []
  simpa [canon] using this

theorem canon_split_rp (a y : List Char) :
    canon (a ++ ')' :: y) = canon a ++ Item.rp :: canon y := by
  have := canonGo_split ')' [Item.rp] (Or.inr (Or.inr ⟨rfl, rfl⟩)) y a.length a le_rfl true []
  simpa [canon] using this

theorem canon_split_kw (w y a : List Char)
    (hw1 : w ≠ []) (hw2 : ∀ c ∈ w, isWordChar c = true) (hw3 : lcString w ∈ iteWords)
    (hy : ∀ c, y.head? = some c → isWordChar c = false)
    (ha : ∀ c, a.getLast? = some c → isWordChar c = false) :
    canon (a ++ w ++ y) = canon a ++ Item.kw (lcString w) :: canon y :=
  canonGo_split_kw w y hw1 hw2 hw3 hy a.length a le_rfl true [] ha (fun _ => rfl)

theorem canon_allws (u : List Char) (h : ∀ c ∈ u, isPyWs c = true) : canon u = [] := by
  induction u with
  | nil => exact canon_nil
  | cons c rest ih =>
    rw [canon_ws_cons c rest (h c (List.mem_cons_self c rest))]
    exact ih (fun d hd => h d (List.mem_cons_of_mem c hd))

theorem canon_append_allws (x w : List Char) (h : ∀ c ∈ w, isPyWs c = true) :
    canon (x ++ w) = canon x := by
  cases w with
  | nil => simp
  | cons c w' =>
    rw [canon_split_ws c (h c (List.mem_cons_self c w')) x w']
    rw [canon_allws w' (fun d hd => h d (List.mem_cons_of_mem c hd))]
    simp

theorem canon_lstrip (z : List Char) : canon (lstripPy z) = canon z := by
  unfold lstripPy
  induction z with
  | nil => rfl
  | cons c z' ih =>
    by_cases hc : isPyWs c = true
    · rw [List.dropWhile_cons, if_pos hc, canon_ws_cons c z' hc]
      exact ih
    · rw [List.dropWhile_cons, if_neg (by simp [bneF hc])]

theorem canon_rstrip (z : List Char) : canon (rstripPy z) = canon z := by
  have hz : z = rstripPy z ++ (z.reverse.takeWhile isPyWs).reverse := by
    unfold rstripPy
    conv_lhs => rw [← List.reverse_reverse z,
      ← List.takeWhile_append_dropWhile (p := isPyWs) (l := z.reverse)]
    rw [List.reverse_append]
  have hws : ∀ c ∈ (z.reverse.takeWhile isPyWs).reverse, isPyWs c = true := by
    intro c hc
    exact List.mem_takeWhile_imp (List.mem_reverse.mp hc)
  conv_rhs => rw [hz]
  rw [canon_append_allws _ _ hws]

theorem canon_strip (z : List Char) : canon (stripPy z) = canon z := by
  rw [stripPy, canon_rstrip, canon_lstrip]

theorem canon_single_lp : canon ['('] = [Item.lp] := by
  rw [canon, canonGo_lp, canonGo_nil]
  rfl

theorem canon_single_rp : canon [')'] = [Item.rp] := by
  rw [canon, canonGo_rp, canonGo_nil]
  rfl

theorem canon_kw_word (w : List Char)
    (hw1 : w ≠ []) (hw2 : ∀ c ∈ w, isWordChar c = true) (hw3 : lcString w ∈ iteWords) :
    canon w = [Item.kw (lcString w)] := by
  have := canon_split_kw w [] [] hw1 hw2 hw3 (by intro c h; cases h) (by intro c h; cases h)
  simpa [canon_nil] using this

/-! #### compact preserves canon -/

theorem canon_intercalate (c : Char) (hc : isPyWs c = true) :
    ∀ L : List (List Char), canon (List.intercalate [c] L) = (L.map canon).join := by
  intro L
  induction L with
  | nil => simp [List.intercalate, canon_nil]
  | cons x L' ih =>
    cases L' with
    | nil => simp [List.intercalate]
    | cons x' L'' =>
      have hstep : List.intercalate [c] (x :: x' :: L'') =
          x ++ c :: List.intercalate [c] (x' :: L'') := by
        simp only [List.intercalate, List.intersperse_cons_cons, List.join_cons]
        simp
      rw [hstep, canon_split_ws c hc, ih]
      simp

theorem canon_splitPyWs : ∀ n (u : List Char), u.length ≤ n →
    canon u = ((splitPyWs u).map canon).join := by
  intro n
  induction n with
  | zero =>
    intro u hu
    have : u = [] := List.length_eq_zero.mp (Nat.le_zero.mp hu)
    subst this
    simp [splitPyWs, canon_nil]
  | succ n ih =>
    intro u hu
    cases u with
    | nil => simp [splitPyWs, canon_nil]
    | cons c rest =>
      by_cases hc : isPyWs c = true
      · rw [splitPyWs, if_pos hc, canon_ws_cons c rest hc]
        exact ih rest (by simp at hu; omega)
      · have hrest : rest.length ≤ n := by
          simp at hu
          omega
        rw [splitPyWs, if_neg hc]
        have hnc : (!isPyWs c) = true := by rw [bneF hc]; rfl
        have hdeq : (c :: rest).dropWhile (fun x => !isPyWs x) =
            rest.dropWhile (fun x => !isPyWs x) := by
          simp [List.dropWhile_cons, hnc]
        have hdecomp : c :: rest = (c :: rest).takeWhile (fun x => !isPyWs x) ++
            rest.dropWhile (fun x => !isPyWs x) := by
          conv_lhs => rw [← List.takeWhile_append_dropWhile (p := fun x => !isPyWs x)
            (l := c :: rest)]
          rw [hdeq]
        cases hd : rest.dropWhile (fun x => !isPyWs x) with
        | nil =>
          rw [hd] at hdecomp
          simp only [List.map_cons, List.join_cons]
          conv_lhs => rw [hdecomp]
          simp [splitPyWs, canon_nil]
        | cons d dtail =>
          have hdws : isPyWs d = true := by
            have := head?_dropWhile (fun x => !isPyWs x) rest d (by rw [hd]; rfl)
            simpa using this
          have hdlen : dtail.length ≤ n := by
            have := (List.dropWhile_sublist (l := rest)
              (p := fun x => !isPyWs x)).length_le
            rw [hd] at this
            simp at this
            omega
          rw [hd] at hdecomp
          simp only [List.map_cons, List.join_cons]
          conv_lhs => rw [hdecomp]
          rw [canon_split_ws d hdws]
          rw [splitPyWs, if_pos hdws]
          rw [ih dtail hdlen]

theorem canon_compact (u : List Char) : canon (compact u) = canon u := by
  rw [compact, canon_intercalate ' ' (by decide)]
  exact (canon_splitPyWs u.length u le_rfl).symm

/-! #### tokenizer structure lemmas -/

theorem keywordAt_word_eq (kset : List String) (text : List Char) (i : Nat) (k : Kw)
    (h : keywordAt kset text i = some k) :
    k.word = lcString (wordFrom text i) ∧ lcString (wordFrom text i) ∈ kset ∧
      boundaryBefore text i = true := by
  unfold keywordAt at h
  split at h
  · rename_i hb
    dsimp only at h
    split at h
    · rename_i hw
      cases h
      exact ⟨rfl, hw.2, hb⟩
    · exact absurd h (by simp)
  · exact absurd h (by simp)

theorem delimLen_cases (text : List Char) (i len : Nat) (h : delimLen text i = some len) :
    (len = 1 ∧ (charAt text i = '(' ∨ charAt text i = ')')) ∨
    (len = (wordFrom text i).length ∧ wordFrom text i ≠ [] ∧
      (∀ c ∈ wordFrom text i, isWordChar c = true) ∧
      lcString (wordFrom text i) ∈ iteWords ∧ boundaryBefore text i = true) := by
  unfold delimLen at h
  split at h
  · rename_i hcond
    cases h
    exact Or.inl ⟨rfl, hcond.2⟩
  · cases hk : keywordAt iteWords text i with
    | none => rw [hk] at h; cases h
    | some k =>
      rw [hk] at h
      cases h
      obtain ⟨h1, h2, h3⟩ := keywordAt_eq iteWords text i k hk
      obtain ⟨h4, h5, h6⟩ := keywordAt_word_eq iteWords text i k hk
      refine Or.inr ⟨by rw [h2, h1]; omega, h3, ?_, h5, h6⟩
      intro c hc
      exact List.mem_takeWhile_imp hc

theorem tokenizeGo_stop (text : List Char) (i : Nat) (run : List Char)
    (acc : List (List Char)) (hge : ¬ i < text.length) :
    tokenizeGo text i run acc = acc ++ (if run = [] then [] else [run]) := by
  rw [tokenizeGo]
  rw [dif_neg hge]

theorem tokenizeGo_delim (text : List Char) (i len : Nat) (run : List Char)
    (acc : List (List Char)) (hi : i < text.length) (hd : delimLen text i = some len) :
    tokenizeGo text i run acc =
      tokenizeGo text (i + len) []
        (acc ++ (if run = [] then [] else [run]) ++ [seg text i (i + len)]) := by
  rw [tokenizeGo]
  rw [dif_pos hi]
  split
  · rename_i len' hd'
    rw [hd] at hd'
    cases hd'
    rfl
  · rename_i hd'
    rw [hd] at hd'
    cases hd'

theorem tokenizeGo_char (text : List Char) (i : Nat) (run : List Char)
    (acc : List (List Char)) (hi : i < text.length) (hd : delimLen text i = none) :
    tokenizeGo text i run acc = tokenizeGo text (i + 1) (run ++ [text.get ⟨i, hi⟩]) acc := by
  rw [tokenizeGo]
  rw [dif_pos hi]
  split
  · rename_i len' hd'
    rw [hd] at hd'
    cases hd'
  · rfl

theorem join_append' {α : Type} (a b : List (List α)) : (a ++ b).join = a.join ++ b.join :=
  List.flatten_append a b

theorem join_cons' {α : Type} (x : List α) (l : List (List α)) : (x :: l).join = x ++ l.join :=
  rfl

theorem join_nil' {α : Type} : ([] : List (List α)).join = [] := rfl

theorem join_canon_runpart (run : List Char) :
    (((if run = [] then ([] : List (List Char)) else [run])).map canon).join = canon run := by
  by_cases h : run = []
  · subst h
    simp [canon_nil]
  · rw [if_neg h]
    simp

theorem join_canon_runpart2 (run : List Char) :
    (((if run = [] then ([] : List (List Char)) else [run])).map canon).flatten = canon run :=
  join_canon_runpart run

/-- The canonical stream of the tokenizer's output is the canonical stream
of the input: `_tokenize_for_pretty_print` only partitions the text at
hard boundaries. -/
theorem tokenizeGo_canon (text : List Char) :
    ∀ n i (run : List Char) (acc : List (List Char)), text.length - i ≤ n →
      (run = [] ∨ (0 < i ∧ run.getLast? = some (charAt text (i - 1)))) →
      ((tokenizeGo text i run acc).map canon).join =
        (acc.map canon).join ++ canon (run ++ text.drop i) := by
  intro n
  induction n with
  | zero =>
    intro i run acc hn _
    have hge : ¬ i < text.length := by omega
    rw [tokenizeGo_stop text i run acc hge]
    rw [List.drop_eq_nil_of_le (by omega)]
    simp [join_canon_runpart]
  | succ n ih =>
    intro i run acc hn hrun
    by_cases hi : i < text.length
    · cases hdl : delimLen text i with
      | some len =>
        have hpos : 0 < len := delimLen_pos text i len hdl
        rw [tokenizeGo_delim text i len run acc hi hdl]
        rw [ih (i + len) [] _ (by omega) (Or.inl rfl)]
        simp only [List.nil_append, List.map_append, List.map_cons, List.map_nil,
          join_append', join_cons', join_nil', join_canon_runpart, List.append_nil]
        rcases delimLen_cases text i len hdl with ⟨h1, h2⟩ | ⟨h1, h2, h3, h4, h5⟩
        · -- paren delimiter
          subst h1
          have hdropi : text.drop i = charAt text i :: text.drop (i + 1) := by
            rw [charAt_eq_getElem text i hi]
            exact List.drop_eq_getElem_cons hi
          have hseg : seg text i (i + 1) = [charAt text i] := by
            unfold seg
            rw [hdropi]
            simp
          rcases h2 with h2 | h2
          · rw [hseg, h2, hdropi, h2]
            rw [canon_split_lp run (text.drop (i + 1)), canon_single_lp]
            simp [join_canon_runpart2]
          · rw [hseg, h2, hdropi, h2]
            rw [canon_split_rp run (text.drop (i + 1)), canon_single_rp]
            simp [join_canon_runpart2]
        · -- keyword delimiter
          set w := wordFrom text i with hw
          have hpre : w <+: text.drop i := List.takeWhile_prefix isWordChar
          obtain ⟨t, ht⟩ := hpre
          have hseg : seg text i (i + len) = w := by
            unfold seg
            rw [h1]
            have hlen0 : i + w.length - i = w.length := by omega
            rw [hlen0, ← ht]
            exact List.take_left w t
          have htdrop : t = (text.drop i).dropWhile isWordChar := by
            have hdec := List.takeWhile_append_dropWhile (p := isWordChar) (l := text.drop i)
            have hx : w ++ t = w ++ (text.drop i).dropWhile isWordChar := by
              conv_lhs => rw [ht, ← hdec]
              rw [show (text.drop i).takeWhile isWordChar = w from rfl]
            exact List.append_cancel_left hx
          have hy : text.drop (i + len) = t := by
            calc text.drop (i + len) = (text.drop i).drop w.length := by
                  rw [h1]
                  simp [List.drop_drop, Nat.add_comm]
              _ = (w ++ t).drop w.length := by rw [← ht]
              _ = t := List.drop_left w t
          have hheadt : ∀ c, t.head? = some c → isWordChar c = false := by
            intro c hc
            rw [htdrop] at hc
            exact head?_dropWhile isWordChar _ c hc
          have hlast : ∀ c, run.getLast? = some c → isWordChar c = false := by
            intro c hc
            rcases hrun with hrun | ⟨hipos, hlq⟩
            · subst hrun; cases hc
            · rw [hlq] at hc
              cases hc
              have hb := h5
              unfold boundaryBefore at hb
              have : ¬ i = 0 := by omega
              simp [this] at hb
              simpa using hb
          rw [hseg]
          rw [canon_kw_word w h2 h3 h4]
          have hsplit : canon (run ++ text.drop i) =
              canon run ++ Item.kw (lcString w) :: canon t := by
            rw [← ht, ← List.append_assoc]
            exact canon_split_kw w t run h2 h3 h4 hheadt hlast
          rw [hsplit, hy]
          simp [join_canon_runpart2]
      | none =>
        rw [tokenizeGo_char text i run acc hi hdl]
        have hget : text.get ⟨i, hi⟩ = charAt text i := (charAt_eq_get text i hi).symm
        rw [ih (i + 1) (run ++ [text.get ⟨i, hi⟩]) acc (by omega)
          (Or.inr ⟨by omega, by
            rw [List.getLast?_concat, hget]
            have h11 : i + 1 - 1 = i := by omega
            rw [h11]⟩)]
        have hdropi : text.drop i = text.get ⟨i, hi⟩ :: text.drop (i + 1) := by
          rw [hget, charAt_eq_getElem text i hi]
          exact List.drop_eq_getElem_cons hi
        rw [hdropi]
        congr 2
        simp
    · rw [tokenizeGo_stop text i run acc hi]
      rw [List.drop_eq_nil_of_le (by omega)]
      simp [join_canon_runpart]

/-- F1: `normToks` of the tokenizer output is the canonical stream. -/
theorem normToks_tokenize (u : List Char) :
    normToks (tokenizeForPrettyPrint u) = canon u := by
  unfold normToks tokenizeForPrettyPrint
  have := tokenizeGo_canon u u.length 0 [] [] (by omega) (Or.inl rfl)
  simpa using this

/-! #### pretty-printer preserves canon -/

theorem canon_wsprefix (w x : List Char) (h : ∀ c ∈ w, isPyWs c = true) :
    canon (w ++ x) = canon x := by
  induction w with
  | nil => rfl
  | cons c w' ih =>
    rw [List.cons_append, canon_ws_cons c _ (h c (List.mem_cons_self c w'))]
    exact ih (fun d hd => h d (List.mem_cons_of_mem c hd))

theorem rstripPy_nil_allws (u : List Char) (h : rstripPy u = []) :
    ∀ c ∈ u, isPyWs c = true := by
  unfold rstripPy at h
  have h2 : u.reverse.dropWhile isPyWs = [] := by
    have := congrArg List.reverse h
    simpa using this
  rw [List.dropWhile_eq_nil_iff] at h2
  intro c hc
  exact h2 c (List.mem_reverse.mpr hc)

theorem stripPy_nil_allws (z : List Char) (h : stripPy z = []) :
    ∀ c ∈ z, isPyWs c = true := by
  unfold stripPy at h
  have hl : ∀ c ∈ lstripPy z, isPyWs c = true := rstripPy_nil_allws _ h
  intro c hc
  have hz : z = z.takeWhile isPyWs ++ lstripPy z := by
    unfold lstripPy
    rw [List.takeWhile_append_dropWhile]
  rw [hz] at hc
  rcases List.mem_append.mp hc with hc | hc
  · exact List.mem_takeWhile_imp hc
  · exact hl c hc

theorem canon_of_strip_nil (z : List Char) (h : stripPy z = []) : canon z = [] :=
  canon_allws z (stripPy_nil_allws z h)

theorem canon_indent_line (k : Nat) (body : List Char) :
    canon (indentChars k ++ body) = canon body := by
  apply canon_wsprefix
  intro c hc
  rw [List.eq_of_mem_replicate hc]
  rfl

theorem allws_sp : ∀ c ∈ [' '], isPyWs c = true := by
  intro c hc
  rw [List.mem_singleton] at hc
  subst hc
  decide

theorem ppFlush_canon (st : PPState) :
    (((ppFlush st).result.map canon).join) =
      (st.result.map canon).join ++ canon st.curLine := by
  unfold ppFlush
  by_cases h : stripPy st.curLine ≠ []
  · rw [if_pos h]
    show ((st.result ++ [indentChars st.indent ++ stripPy st.curLine]).map canon).join = _
    rw [List.map_append, join_append', List.map_cons, List.map_nil, join_cons', join_nil',
      List.append_nil, canon_indent_line, canon_strip]
  · rw [if_neg h]
    rw [canon_of_strip_nil st.curLine (by revert h; simp)]
    simp

theorem ppFlush_curLine_canon (st : PPState) : canon (ppFlush st).curLine = [] := by
  unfold ppFlush
  by_cases h : stripPy st.curLine ≠ []
  · rw [if_pos h]
    exact canon_nil
  · rw [if_neg h]
    exact canon_of_strip_nil st.curLine (by revert h; simp)

theorem ppFlush_hcl (st : PPState)
    (h : st.curLine = [] ∨ st.curLine.getLast? = some ' ') :
    (ppFlush st).curLine = [] ∨ (ppFlush st).curLine.getLast? = some ' ' := by
  unfold ppFlush
  by_cases hc : stripPy st.curLine ≠ []
  · rw [if_pos hc]
    exact Or.inl rfl
  · rw [if_neg hc]
    exact h

theorem canon_curLine_append (cl x : List Char)
    (hcl : cl = [] ∨ cl.getLast? = some ' ') :
    canon (cl ++ x) = canon cl ++ canon x := by
  rcases hcl with hcl | hcl
  · subst hcl
    rw [canon_nil]
    rfl
  · have hne : cl ≠ [] := by
      intro he
      rw [he] at hcl
      cases hcl
    have hgl : cl.getLast hne = ' ' := by
      have h2 := List.getLast?_eq_getLast cl hne
      exact Option.some.inj (h2.symm.trans hcl)
    have hdl : cl = cl.dropLast ++ [' '] := by
      conv_lhs => rw [← List.dropLast_append_getLast hne]
      rw [hgl]
    conv_lhs => rw [hdl]
    rw [List.append_assoc, List.singleton_append, canon_split_ws ' ' (by decide)]
    conv_rhs => rw [hdl]
    rw [canon_append_allws _ [' '] allws_sp]

theorem canon_strip_sp (tok : List Char) :
    canon (stripPy tok ++ [' ']) = canon tok := by
  rw [canon_append_allws _ [' '] allws_sp]
  exact canon_strip tok

/-! ppStep branch equations -/

theorem ppStep_ws_eq (st : PPState) (tok : List Char) (h1 : stripPy tok = [])
    (h2 : ¬ (st.curLine ≠ [] ∧ st.curLine.getLast? ≠ some ' ')) : ppStep st tok = st := by
  unfold ppStep
  rw [if_pos h1, if_neg h2]

theorem ppStep_lp_eq (st : PPState) (tok : List Char) (h : stripPy tok = ['(']) :
    ppStep st tok =
      ⟨(ppFlush st).result ++ [indentChars (ppFlush st).indent ++ ['(']],
        (ppFlush st).indent + 1, (ppFlush st).curLine⟩ := by
  unfold ppStep
  rw [if_neg (by rw [h]; simp), if_pos h]

theorem ppStep_rp_eq (st : PPState) (tok : List Char) (h : stripPy tok = [')']) :
    ppStep st tok =
      ⟨(ppFlush st).result ++ [indentChars ((ppFlush st).indent - 1) ++ [')']],
        (ppFlush st).indent - 1, (ppFlush st).curLine⟩ := by
  unfold ppStep
  rw [if_neg (by rw [h]; simp), if_neg (by rw [h]; simp), if_pos h]

theorem ppStep_kw_eq (st : PPState) (tok : List Char) (h1 : stripPy tok ≠ [])
    (h2 : stripPy tok ≠ ['(']) (h3 : stripPy tok ≠ [')'])
    (h4 : lcString (stripPy tok) ∈ iteWords) :
    ppStep st tok =
      ⟨(ppFlush st).result, (ppFlush st).indent, stripPy tok ++ [' ']⟩ := by
  unfold ppStep
  rw [if_neg h1, if_neg h2, if_neg h3, if_pos h4]

theorem ppStep_run_eq (st : PPState) (tok : List Char) (h1 : stripPy tok ≠ [])
    (h2 : stripPy tok ≠ ['(']) (h3 : stripPy tok ≠ [')'])
    (h4 : lcString (stripPy tok) ∉ iteWords) :
    ppStep st tok = ⟨st.result, st.indent, st.curLine ++ stripPy tok ++ [' ']⟩ := by
  unfold ppStep
  rw [if_neg h1, if_neg h2, if_neg h3, if_neg h4]

/-- The pretty-printing fold emits lines whose canonical streams
concatenate to those of the remaining tokens. -/
theorem ppFold_canon : ∀ (toks : List (List Char)) (st : PPState),
    (st.curLine = [] ∨ st.curLine.getLast? = some ' ') →
    (((ppFlush (toks.foldl ppStep st)).result.map canon).join =
      (st.result.map canon).join ++ canon st.curLine ++ (toks.map canon).join) := by
  intro toks
  induction toks with
  | nil =>
    intro st _
    rw [List.foldl_nil, ppFlush_canon]
    simp
  | cons tok toks' ih =>
    intro st hcl
    rw [List.foldl_cons]
    rw [List.map_cons, join_cons']
    by_cases h1 : stripPy tok = []
    · have hctok : canon tok = [] := canon_of_strip_nil tok h1
      rw [ppStep_ws_eq st tok h1 (by
        rintro ⟨hne, hlq⟩
        rcases hcl with h | h
        · exact hne h
        · exact hlq h)]
      rw [ih st hcl, hctok]
      simp
    · by_cases hlq : stripPy tok = ['(']
      · rw [ppStep_lp_eq st tok hlq]
        have hctok : canon tok = [Item.lp] := by
          rw [← canon_strip tok, hlq, canon_single_lp]
        rw [ih ⟨(ppFlush st).result ++ [indentChars (ppFlush st).indent ++ ['(']],
          (ppFlush st).indent + 1, (ppFlush st).curLine⟩ (ppFlush_hcl st hcl)]
        show ((((ppFlush st).result ++ [indentChars (ppFlush st).indent ++ ['(']]).map
          canon).join) ++ canon (ppFlush st).curLine ++ _ = _
        rw [List.map_append, join_append', List.map_cons, List.map_nil, join_cons',
          join_nil', List.append_nil, canon_indent_line, canon_single_lp,
          ppFlush_canon, ppFlush_curLine_canon, hctok]
        simp
      · by_cases hrq : stripPy tok = [')']
        · rw [ppStep_rp_eq st tok hrq]
          have hctok : canon tok = [Item.rp] := by
            rw [← canon_strip tok, hrq, canon_single_rp]
          rw [ih ⟨(ppFlush st).result ++ [indentChars ((ppFlush st).indent - 1) ++ [')']],
            (ppFlush st).indent - 1, (ppFlush st).curLine⟩ (ppFlush_hcl st hcl)]
          show ((((ppFlush st).result ++ [indentChars ((ppFlush st).indent - 1) ++
            [')']]).map canon).join) ++ canon (ppFlush st).curLine ++ _ = _
          rw [List.map_append, join_append', List.map_cons, List.map_nil, join_cons',
            join_nil', List.append_nil, canon_indent_line, canon_single_rp,
            ppFlush_canon, ppFlush_curLine_canon, hctok]
          simp
        · by_cases hkw : lcString (stripPy tok) ∈ iteWords
          · rw [ppStep_kw_eq st tok h1 hlq hrq hkw]
            rw [ih ⟨(ppFlush st).result, (ppFlush st).indent, stripPy tok ++ [' ']⟩
              (Or.inr (List.getLast?_concat _))]
            show ((ppFlush st).result.map canon).join ++ canon (stripPy tok ++ [' ']) ++ _ = _
            rw [ppFlush_canon, canon_strip_sp]
            simp
          · rw [ppStep_run_eq st tok h1 hlq hrq hkw]
            rw [ih ⟨st.result, st.indent, st.curLine ++ stripPy tok ++ [' ']⟩
              (Or.inr (List.getLast?_concat _))]
            show (st.result.map canon).join ++ canon (st.curLine ++ stripPy tok ++ [' ']) ++
              _ = _
            rw [List.append_assoc st.curLine, canon_curLine_append st.curLine _ hcl,
              canon_strip_sp]
            simp

/-- The pretty-printer (expand) preserves the canonical stream. -/
theorem canon_prettyPrint (s : List Char) :
    canon (prettyPrintRelevance s) = canon s := by
  unfold prettyPrintRelevance
  rw [canon_intercalate '\n' (by decide)]
  have hfold := ppFold_canon (tokenizeForPrettyPrint s) ⟨[], 0, []⟩ (Or.inl rfl)
  simp only [List.map_nil, join_nil', List.nil_append] at hfold
  rw [canon_nil] at hfold
  simp only [List.nil_append] at hfold
  have htok := normToks_tokenize s
  unfold normToks at htok
  rw [hfold, htok]

/-- C9: for every single-line text `s`, tokenizing
`compact (expand s)` and tokenizing `compact s` yield the same canonical
token sequence — identical parens, if/then/else keywords and
text-run word content, differing only in whitespace. -/
theorem c9_round_trip (s : List Char) (hnl : '\n' ∉ s) :
    normToks (tokenizeForPrettyPrint (compact (prettyPrintRelevance s))) =
      normToks (tokenizeForPrettyPrint (compact s)) := by
  rw [normToks_tokenize, normToks_tokenize, canon_compact, canon_compact,
    canon_prettyPrint]

/-- Witness for C9 at `s = "if x then (a of b) else c"`. -/
theorem c9_round_trip_witness :
    normToks (tokenizeForPrettyPrint (compact
      (prettyPrintRelevance (String.toList "if x then (a of b) else c")))) =
      normToks (tokenizeForPrettyPrint (compact
        (String.toList "if x then (a of b) else c"))) :=
  c9_round_trip (String.toList "if x then (a of b) else c") (by decide)

end FixletDebugger
